import Mathlib

/-!
Needleman-Wunsch edit distance: the four engines of `Needleman-Wunsch-recmemo.c`.

A shallow embedding of `EditDistance_NW_Rec`, `EditDistance_NW_Iter`,
`EditDistance_NW_Aware` and `EditDistance_NW_Oblivious`.

Conventions of the embedding.

* A sequence `char *A` with its length `lengthA` is a `List Char`; the length is the
  length of the list.  `A[i]` is `charAt A i`.
* `long` values are `Int`, `long *` buffers are `List Int` read with `rd` and written
  with `List.set`; the memoization table `long **` is a `List (List Int)`.
* A count-down loop `for (int i = n - 1; i >= 0; i--)` is a structural recursion on
  the natural number `i + 1`: the equation for `k + 1` runs the body with `i = k`.
  Lengths are assumed to fit the C type `int`, so no index wraps around.
* Loops whose step is a parameter (`outerJ -= K`) and the recursions of the source
  carry a fuel argument and return `none` when it runs out.
* `characters_to_base.h` is not part of the sources: the classifier is a parameter.
* `ManageBaseError` and `_init_base_match` have no effect on the returned value and
  are left out.
* The memory safety of `EditDistance_NW_Rec` and `EditDistance_NW_Iter` is studied on a second
  embedding of these two engines, `checkedRec` and `checkedIter`, in which every read and
  every write is checked against the extent it touches.
-/

namespace NW

/-! ## The base classifier -/

/-- Modelled from the spec: the Base Classifier of `characters_to_base.h` (macros `isBase`,
`isUnknownBase`, `isSameBase`), which is not among the sources.  `isBase c` holds when `c` is a
canonical or an ambiguous base, `isUnknownBase c` when `c` is an ambiguous base, and
`isSameBase a b` when the two bases are equal. -/
structure Classifier where
  /-- The character is a canonical or an ambiguous base. -/
  isBase : Char → Bool
  /-- The character is an ambiguous (unknown) base. -/
  isUnknownBase : Char → Bool
  /-- The two bases are equal. -/
  isSameBase : Char → Char → Bool

/-- Modelled from the spec: the properties of the Base Classifier the spec relies on.  Equality
of bases is symmetric, a canonical base is never equal to an ambiguous one, and a canonical base
is equal to itself. -/
structure Classifier.Lawful (cl : Classifier) : Prop where
  /-- Equality of bases is symmetric. -/
  same_symm : ∀ x y, cl.isSameBase x y = cl.isSameBase y x
  /-- A canonical base is not equal to an ambiguous base. -/
  same_unknown : ∀ x y, cl.isUnknownBase x = false → cl.isUnknownBase y = true →
    cl.isSameBase x y = false
  /-- A canonical base is equal to itself. -/
  same_self : ∀ x, cl.isBase x = true → cl.isUnknownBase x = false → cl.isSameBase x x = true

/-- Modelled from the spec: a concrete classifier with the canonical bases `A`, `C`, `G`, `T`
and the ambiguous base `N`; every other character is a non-base. -/
def dna : Classifier where
  isBase c := c == 'A' || c == 'C' || c == 'G' || c == 'T' || c == 'N'
  isUnknownBase c := c == 'N'
  isSameBase a b := a == b

/-! ## Constants and macros of `Needleman-Wunsch-recmemo.h` -/

/-- The macro `#define SUBSTITUTION_COST 1` -/
def SUBSTITUTION_COST : Int := 1

/-- The macro `#define SUBSTITUTION_UNKNOWN_COST 1` -/
def SUBSTITUTION_UNKNOWN_COST : Int := 1

/-- The macro `#define INSERTION_COST 2` -/
def INSERTION_COST : Int := 2

/-- The macro `#define K 64` -/
def K : Nat := 64

/-- The macro `#define S 128` -/
def S : Nat := 128

/-- The macro `#define NOT_YET_COMPUTED -1L` -/
def NOT_YET_COMPUTED : Int := -1

/-- The macro `#define MIN(a, b, c) ((a < b && a < c) ? a : ((b < c) ? b : c))` -/
def MIN (a b c : Int) : Int :=
  if a < b ∧ a < c then a else if b < c then b else c

/-! ## Memory -/

/-- The character `A[i]`; past the end of the sequence the terminating NUL is read. -/
def charAt (A : List Char) (i : Nat) : Char := A.getD i (Char.ofNat 0)

/-- The read `buf[i]` of a `long` buffer. -/
def rd (buf : List Int) (i : Nat) : Int := buf.getD i 0

/-- The expression `(isBase(c) ? INSERTION_COST : 0)`. -/
def gap (cl : Classifier) (c : Char) : Int :=
  if cl.isBase c then INSERTION_COST else 0

/-- The boundary loop shared by the three buffer engines,
`for (int i = size - 1; i >= 0; i--) column[i] = (isBase(A[i]) ? INSERTION_COST : 0) + column[i + 1];`
The first argument is `i + 1`. -/
def initColumn (cl : Classifier) (A : List Char) : Nat → List Int → List Int
  | 0, column => column
  | i + 1, column =>
    initColumn cl A i (column.set i (gap cl (charAt A i) + rd column (i + 1)))

/-- The buffer after `long *column = malloc((size + 1) * sizeof(long)); column[size] = 0;` and
the boundary loop. -/
def boundary (cl : Classifier) (A : List Char) : List Int :=
  initColumn cl A A.length ((List.replicate (A.length + 1) 0).set A.length 0)

/-! ## `EditDistance_NW_Rec` -/

/-- The read `memo[i][j]` of the memoization table. -/
def memoRead (memo : List (List Int)) (i j : Nat) : Int := rd (memo.getD i []) j

/-- The write `memo[i][j] = v` of the memoization table. -/
def memoWrite (memo : List (List Int)) (i j : Nat) (v : Int) : List (List Int) :=
  memo.set i ((memo.getD i []).set j v)

/-- The table after the allocation loops of `EditDistance_NW_Rec`: `M + 1` rows of `N + 1`
entries, all `NOT_YET_COMPUTED`. -/
def memoAlloc (M N : Nat) : List (List Int) :=
  List.replicate (M + 1) (List.replicate (N + 1) NOT_YET_COMPUTED)

/-- The structure `struct NW_MemoContext` without its field `memo`, the only one that changes during a call:
the table is passed from call to call as a state. -/
structure NW_MemoContext where
  /-- The longest genetic sequence. -/
  X : List Char
  /-- The shortest genetic sequence. -/
  Y : List Char
  /-- The length of `X`. -/
  M : Nat
  /-- The length of `Y`. -/
  N : Nat

/-- The substitution term of `EditDistance_NW_RecMemo`,
`isUnknownBase(Xi) ? SUBSTITUTION_UNKNOWN_COST : (isSameBase(Xi, Yj) ? 0 : SUBSTITUTION_COST)`. -/
def recSubst (cl : Classifier) (Xi Yj : Char) : Int :=
  if cl.isUnknownBase Xi then SUBSTITUTION_UNKNOWN_COST
  else if cl.isSameBase Xi Yj then 0 else SUBSTITUTION_COST

/-- The end of a miss in `EditDistance_NW_RecMemo`, `c->memo[i][j] = res ;` followed by
`return c->memo[i][j] ;`, for the value `res` and the table that the branches computed. -/
def memoStore (i j : Nat) : Option (Int × List (List Int)) → Option (Int × List (List Int))
  | none => none
  | some r =>
    let memo := memoWrite r.2 i j r.1
    some (memoRead memo i j, memo)

/-- The function `static long EditDistance_NW_RecMemo(struct NW_MemoContext *c, size_t i, size_t j)`.  The
first `Nat` argument is the fuel; the result is the returned value with the table after the
call. -/
def EditDistance_NW_RecMemo (cl : Classifier) (c : NW_MemoContext) :
    Nat → List (List Int) → Nat → Nat → Option (Int × List (List Int))
  | 0, _, _, _ => none
  | fuel + 1, memo, i, j =>
    if memoRead memo i j = NOT_YET_COMPUTED then
      let Xi := charAt c.X i
      let Yj := charAt c.Y j
      let computed : Option (Int × List (List Int)) :=
        if i = c.M then
          if j = c.N then some (0, memo)
          else
            match EditDistance_NW_RecMemo cl c fuel memo i (j + 1) with
            | none => none
            | some r => some (gap cl Yj + r.1, r.2)
        else if j = c.N then
          match EditDistance_NW_RecMemo cl c fuel memo (i + 1) j with
          | none => none
          | some r => some (gap cl Xi + r.1, r.2)
        else if !cl.isBase Xi then
          EditDistance_NW_RecMemo cl c fuel memo (i + 1) j
        else if !cl.isBase Yj then
          EditDistance_NW_RecMemo cl c fuel memo i (j + 1)
        else
          match EditDistance_NW_RecMemo cl c fuel memo (i + 1) (j + 1) with
          | none => none
          | some r1 =>
            let min := recSubst cl Xi Yj + r1.1
            match EditDistance_NW_RecMemo cl c fuel r1.2 (i + 1) j with
            | none => none
            | some r2 =>
              let cas2 := INSERTION_COST + r2.1
              let min := if cas2 < min then cas2 else min
              match EditDistance_NW_RecMemo cl c fuel r2.2 i (j + 1) with
              | none => none
              | some r3 =>
                let cas3 := INSERTION_COST + r3.1
                let min := if cas3 < min then cas3 else min
                some (min, r3.2)
      memoStore i j computed
    else some (memoRead memo i j, memo)

/-- The context that `EditDistance_NW_Rec` builds: `X` is the longest sequence, `Y` the
shortest, and `X = A` when the lengths are equal. -/
def recContext (A B : List Char) : NW_MemoContext :=
  if A.length ≥ B.length then ⟨A, B, A.length, B.length⟩
  else ⟨B, A, B.length, A.length⟩

/-- The body of `EditDistance_NW_Rec` up to the deallocation: the value of the call
`EditDistance_NW_RecMemo(&ctx, 0, 0)` with the table it leaves.  Every call moves `i` or `j`
forward, so `M + N + 1` levels of recursion are enough. -/
def recRun (cl : Classifier) (A B : List Char) : Option (Int × List (List Int)) :=
  let ctx := recContext A B
  EditDistance_NW_RecMemo cl ctx (ctx.M + ctx.N + 1) (memoAlloc ctx.M ctx.N) 0 0

/-- The function `long EditDistance_NW_Rec(char* A, size_t lengthA, char* B, size_t lengthB)` -/
def EditDistance_NW_Rec (cl : Classifier) (A B : List Char) : Option Int :=
  match recRun cl A B with
  | none => none
  | some r => some r.1

/-! ## `EditDistance_NW_Iter` -/

/-- The expression
`(isUnknownBase(a) || !isSameBase(a, b)) ? 1 : 0` of the three buffer engines. -/
def mismatch_cost (cl : Classifier) (a b : Char) : Int :=
  if cl.isUnknownBase a || !cl.isSameBase a b then 1 else 0

/-- The inner loop `while (row_index >= 0)` of `EditDistance_NW_Iter` for the column of the
character `Bj`.  The first argument is `row_index + 1`; the state is `columnM`,
`right_element` and `diagonal_element`. -/
def iterRows (cl : Classifier) (A : List Char) (Bj : Char) :
    Nat → List Int → Int → Int → List Int × Int × Int
  | 0, columnM, right_element, diagonal_element => (columnM, right_element, diagonal_element)
  | row_index + 1, columnM, right_element, diagonal_element =>
    if !cl.isBase (charAt A row_index) then
      iterRows cl A Bj row_index (columnM.set row_index right_element)
        right_element diagonal_element
    else
      let result := MIN (2 + rd columnM row_index) (2 + right_element)
        (diagonal_element + mismatch_cost cl (charAt A row_index) Bj)
      iterRows cl A Bj row_index (columnM.set row_index result) result (rd columnM row_index)

/-- The outer loop `while (col_index >= 0)` of `EditDistance_NW_Iter`.  The first argument is
`col_index + 1`; the state is `columnM` and `columnN`.  (`right_element` and
`diagonal_element` are assigned at the top of the `else` branch before they are read.) -/
def iterCols (cl : Classifier) (A B : List Char) :
    Nat → List Int → List Int → List Int × List Int
  | 0, columnM, columnN => (columnM, columnN)
  | col_index + 1, columnM, columnN =>
    if !cl.isBase (charAt B col_index) then
      iterCols cl A B col_index columnM (columnN.set (col_index + 1) (rd columnM 0))
    else
      let r := iterRows cl A (charAt B col_index) A.length columnM
        (rd columnN col_index) (rd columnN (col_index + 1))
      iterCols cl A B col_index r.1 (columnN.set (col_index + 1) r.2.2)

/-- The function `long EditDistance_NW_Iter(char *A, size_t lengthA, char *B, size_t lengthB)` -/
def EditDistance_NW_Iter (cl : Classifier) (A B : List Char) : Int :=
  rd (iterCols cl A B B.length (boundary cl A) (boundary cl B)).1 0

/-! ## `EditDistance_NW_Aware` -/

/-- The loop `while (indexA >= 0 && indexA > outerJ - K)` of `EditDistance_NW_Aware` for the
column of the character `Bj`, with the tile edge `K` as a parameter.  The first `Nat` argument
of the recursion is `indexA + 1`.  A non-base `A[indexA]` only decrements `indexA`. -/
def awareRows (cl : Classifier) (K : Nat) (A : List Char) (Bj : Char) (outerJ : Nat) :
    Nat → List Int → Int → Int → List Int × Int × Int
  | 0, columnM, right_element, diagonal_element => (columnM, right_element, diagonal_element)
  | indexA + 1, columnM, right_element, diagonal_element =>
    if (indexA : Int) > (outerJ : Int) - (K : Int) then
      if cl.isBase (charAt A indexA) then
        let result := MIN (2 + rd columnM indexA) (2 + right_element)
          (diagonal_element + mismatch_cost cl (charAt A indexA) Bj)
        awareRows cl K A Bj outerJ indexA (columnM.set indexA result) result (rd columnM indexA)
      else
        awareRows cl K A Bj outerJ indexA columnM right_element diagonal_element
    else (columnM, right_element, diagonal_element)

/-- The loop `while (indexB >= 0 && indexB > outerI - K)` of `EditDistance_NW_Aware`.  The
first `Nat` argument of the recursion is `indexB + 1`; the state is `columnM` and `columnN`. -/
def awareCols (cl : Classifier) (K : Nat) (A B : List Char) (outerJ outerI : Nat) :
    Nat → List Int → List Int → List Int × List Int
  | 0, columnM, columnN => (columnM, columnN)
  | indexB + 1, columnM, columnN =>
    if (indexB : Int) > (outerI : Int) - (K : Int) then
      if cl.isBase (charAt B indexB) then
        let r := awareRows cl K A (charAt B indexB) outerJ (outerJ + 1) columnM
          (rd columnN indexB) (rd columnN (indexB + 1))
        awareCols cl K A B outerJ outerI indexB r.1 (columnN.set (indexB + 1) r.2.2)
      else
        awareCols cl K A B outerJ outerI indexB columnM
          (columnN.set (indexB + 1) (rd columnM (if outerJ < K then 0 else outerJ - K + 1)))
    else (columnM, columnN)

/-- The loop `for (int outerI = n - 1; outerI >= 0; outerI -= K)` of `EditDistance_NW_Aware`.
The first argument is the fuel, the second is `outerI + 1`.  (The assignments of
`right_element` and `diagonal_element` at the top of the body are overwritten before they are
read.) -/
def awareTileCols (cl : Classifier) (K : Nat) (A B : List Char) (outerJ : Nat) :
    Nat → Nat → List Int → List Int → Option (List Int × List Int)
  | _, 0, columnM, columnN => some (columnM, columnN)
  | 0, _ + 1, _, _ => none
  | fuel + 1, outerI + 1, columnM, columnN =>
    let r := awareCols cl K A B outerJ outerI (outerI + 1) columnM columnN
    awareTileCols cl K A B outerJ fuel (outerI + 1 - K) r.1 r.2

/-- The loop `for (int outerJ = m - 1; outerJ >= 0; outerJ -= K)` of `EditDistance_NW_Aware`.
The first argument is the fuel, the second is `outerJ + 1`. -/
def awareTileRows (cl : Classifier) (K : Nat) (A B : List Char) :
    Nat → Nat → List Int → List Int → Option (List Int × List Int)
  | _, 0, columnM, columnN => some (columnM, columnN)
  | 0, _ + 1, _, _ => none
  | fuel + 1, outerJ + 1, columnM, columnN =>
    match awareTileCols cl K A B outerJ B.length B.length columnM columnN with
    | none => none
    | some r => awareTileRows cl K A B fuel (outerJ + 1 - K) r.1 r.2

/-- The engine `EditDistance_NW_Aware` with the tile edge `K` as a parameter.  Each tile loop gets as much
fuel as it has indices to cover. -/
def awareWith (cl : Classifier) (K : Nat) (A B : List Char) : Option Int :=
  match awareTileRows cl K A B A.length A.length (boundary cl A) (boundary cl B) with
  | none => none
  | some r => some (rd r.1 0)

/-- The function `long EditDistance_NW_Aware(char *A, size_t lengthA, char *B, size_t lengthB)` -/
def EditDistance_NW_Aware (cl : Classifier) (A B : List Char) : Option Int :=
  awareWith cl K A B

/-! ## `EditDistance_NW_Oblivious` -/

/-- The loop `while (indexA >= start_blockA)` of `Process_Block` for the column of the
character `Bj`.  The first `Nat` argument of the recursion is `indexA + 1`. -/
def blockRows (cl : Classifier) (A : List Char) (Bj : Char) (start_blockA : Int) :
    Nat → List Int → Int → Int → List Int × Int × Int
  | 0, columnM, right_element, diagonal_element => (columnM, right_element, diagonal_element)
  | indexA + 1, columnM, right_element, diagonal_element =>
    if (indexA : Int) ≥ start_blockA then
      if !cl.isBase (charAt A indexA) then
        blockRows cl A Bj start_blockA indexA (columnM.set indexA right_element)
          right_element diagonal_element
      else
        let result := MIN (2 + rd columnM indexA) (2 + right_element)
          (diagonal_element + mismatch_cost cl (charAt A indexA) Bj)
        blockRows cl A Bj start_blockA indexA (columnM.set indexA result) result
          (rd columnM indexA)
    else (columnM, right_element, diagonal_element)

/-- The loop `while (indexB >= start_blockB)` of `Process_Block`.  The first `Nat` argument of
the recursion is `indexB + 1`; the state is `columnN` and `columnM`. -/
def blockCols (cl : Classifier) (A B : List Char) (start_blockA end_blockA start_blockB : Int) :
    Nat → List Int → List Int → List Int × List Int
  | 0, columnN, columnM => (columnN, columnM)
  | indexB + 1, columnN, columnM =>
    if (indexB : Int) ≥ start_blockB then
      if !cl.isBase (charAt B indexB) then
        blockCols cl A B start_blockA end_blockA start_blockB indexB
          (columnN.set (indexB + 1) (rd columnM start_blockA.toNat)) columnM
      else
        let r := blockRows cl A (charAt B indexB) start_blockA (end_blockA + 1).toNat columnM
          (rd columnN indexB) (rd columnN (indexB + 1))
        blockCols cl A B start_blockA end_blockA start_blockB indexB
          (columnN.set (indexB + 1) r.2.2) r.1
    else (columnN, columnM)

/-- The function `void Process_Block(int start_blockA, int end_blockA, int start_blockB, int end_blockB,
long *columnN, long *columnM, char *A, char *B)`; the result is the pair of the updated
`columnN` and `columnM`. -/
def Process_Block (cl : Classifier) (start_blockA end_blockA start_blockB end_blockB : Int)
    (columnN columnM : List Int) (A B : List Char) : List Int × List Int :=
  blockCols cl A B start_blockA end_blockA start_blockB (end_blockB + 1).toNat columnN columnM

/-- The function `void EditDistance_NW_Oblivious_Rec(int start_blockA, int end_blockA, int start_blockB,
int end_blockB, long *columnN, long *columnM, char *A, char *B)` with the threshold `S` as a
parameter.  The first `Nat` argument is the fuel; the result is the pair of the updated `columnN`
and `columnM`.  The C division `n/2` truncates toward zero. -/
def EditDistance_NW_Oblivious_Rec (cl : Classifier) (S : Nat) (A B : List Char) :
    Nat → Int → Int → Int → Int → List Int → List Int → Option (List Int × List Int)
  | 0, _, _, _, _, _, _ => none
  | fuel + 1, start_blockA, end_blockA, start_blockB, end_blockB, columnN, columnM =>
    let n := end_blockB - start_blockB
    let m := end_blockA - start_blockA
    if n ≤ (S : Int) ∧ m ≤ (S : Int) then
      some (Process_Block cl start_blockA end_blockA start_blockB end_blockB columnN columnM A B)
    else if n > (S : Int) then
      let mid := end_blockB - Int.tdiv n 2
      match EditDistance_NW_Oblivious_Rec cl S A B fuel start_blockA end_blockA mid end_blockB
          columnN columnM with
      | none => none
      | some r =>
        EditDistance_NW_Oblivious_Rec cl S A B fuel start_blockA end_blockA start_blockB (mid - 1)
          r.1 r.2
    else if m > (S : Int) then
      let mid := end_blockA - Int.tdiv m 2
      match EditDistance_NW_Oblivious_Rec cl S A B fuel mid end_blockA start_blockB end_blockB
          columnN columnM with
      | none => none
      | some r =>
        EditDistance_NW_Oblivious_Rec cl S A B fuel start_blockA (mid - 1) start_blockB end_blockB
          r.1 r.2
    else some (columnN, columnM)

/-- The engine `EditDistance_NW_Oblivious` with the threshold `S` as a parameter.  Every split makes one of
the two ranges strictly shorter, so `lengthA + lengthB + 1` levels of recursion are enough. -/
def obliviousWith (cl : Classifier) (S : Nat) (A B : List Char) : Option Int :=
  let n : Int := B.length
  let m : Int := A.length
  match EditDistance_NW_Oblivious_Rec cl S A B (A.length + B.length + 1) 0 (m - 1) 0 (n - 1)
      (boundary cl B) (boundary cl A) with
  | none => none
  | some r => some (rd r.2 0)

/-- The function `long EditDistance_NW_Oblivious(char *A, size_t lengthA, char *B, size_t lengthB)` -/
def EditDistance_NW_Oblivious (cl : Classifier) (A B : List Char) : Option Int :=
  obliviousWith cl S A B

/-! ## The recurrence of the specification -/

/-- The substitution cost of spec section 4.1: `SUBSTITUTION_UNKNOWN_COST` if either base is
ambiguous, else `0` if the bases are equal, else `SUBSTITUTION_COST`. -/
def substCost (cl : Classifier) (x y : Char) : Int :=
  if cl.isUnknownBase x || cl.isUnknownBase y then SUBSTITUTION_UNKNOWN_COST
  else if cl.isSameBase x y then 0 else SUBSTITUTION_COST

/-- The plain recurrence `φ(i,j)` of spec section 4.1 on the sequences `X` and `Y`, without any
table.  An index at or past the end of a sequence is the end of that sequence. -/
def phi (cl : Classifier) (X Y : List Char) (i j : Nat) : Int :=
  if X.length ≤ i then
    if Y.length ≤ j then 0
    else gap cl (charAt Y j) + phi cl X Y i (j + 1)
  else if Y.length ≤ j then gap cl (charAt X i) + phi cl X Y (i + 1) j
  else if !cl.isBase (charAt X i) then phi cl X Y (i + 1) j
  else if !cl.isBase (charAt Y j) then phi cl X Y i (j + 1)
  else
    min (substCost cl (charAt X i) (charAt Y j) + phi cl X Y (i + 1) (j + 1))
      (min (INSERTION_COST + phi cl X Y (i + 1) j) (INSERTION_COST + phi cl X Y i (j + 1)))
termination_by (X.length - i) + (Y.length - j)
decreasing_by all_goals simp_wf; all_goals omega

/-- One row of the recurrence on suffixes: the distance of `x :: xs` to every suffix of the
second sequence, from the function `below` giving the distance of `xs` to these suffixes.  The
substitution term is the one of `EditDistance_NW_RecMemo`. -/
def distRow (cl : Classifier) (x : Char) (below : List Char → Int) : List Char → Int
  | [] => gap cl x + below []
  | y :: ys =>
    if !cl.isBase x then below (y :: ys)
    else if !cl.isBase y then distRow cl x below ys
    else
      min (recSubst cl x y + below ys)
        (min (INSERTION_COST + below (y :: ys)) (INSERTION_COST + distRow cl x below ys))

/-- The cost of leaving every character of a sequence unpaired. -/
def gapSum (cl : Classifier) : List Char → Int
  | [] => 0
  | y :: ys => gap cl y + gapSum cl ys

/-- The recurrence on suffixes: `dist cl xs ys` is the value `φ(i,j)` that
`EditDistance_NW_RecMemo` computes when `xs` is what is left of `X` from `i` on and `ys` what is
left of `Y` from `j` on. -/
def dist (cl : Classifier) : List Char → List Char → Int
  | [], ys => gapSum cl ys
  | x :: xs, ys => distRow cl x (dist cl xs) ys

/-! ## Global alignments -/

/-- One column of a global alignment: two paired characters, or one character of the first or
of the second sequence left unpaired. -/
inductive Step where
  /-- A character of the first sequence paired with one of the second. -/
  | pair (a b : Char)
  /-- A character of the first sequence left unpaired. -/
  | left (a : Char)
  /-- A character of the second sequence left unpaired. -/
  | right (b : Char)

/-- The characters of the first sequence that an alignment covers, in order. -/
def firstOf : List Step → List Char
  | [] => []
  | Step.pair a _ :: al => a :: firstOf al
  | Step.left a :: al => a :: firstOf al
  | Step.right _ :: al => firstOf al

/-- The characters of the second sequence that an alignment covers, in order. -/
def secondOf : List Step → List Char
  | [] => []
  | Step.pair _ b :: al => b :: secondOf al
  | Step.left _ :: al => secondOf al
  | Step.right b :: al => b :: secondOf al

/-- Only bases are paired. -/
def pairsBases (cl : Classifier) : List Step → Bool
  | [] => true
  | Step.pair a b :: al => cl.isBase a && cl.isBase b && pairsBases cl al
  | Step.left _ :: al => pairsBases cl al
  | Step.right _ :: al => pairsBases cl al

/-- The list of steps is a global alignment of `A` with `B`: it covers `A` and `B` in order and
pairs only bases. -/
def IsAlignment (cl : Classifier) (al : List Step) (A B : List Char) : Prop :=
  firstOf al = A ∧ secondOf al = B ∧ pairsBases cl al = true

/-- The total cost of an alignment: an unpaired base costs `INSERTION_COST`, an unpaired
non-base nothing, a pair of bases `1` if either is ambiguous, `0` if they are the same base and
`1` otherwise. -/
def alignCost (cl : Classifier) : List Step → Int
  | [] => 0
  | Step.pair a b :: al => substCost cl a b + alignCost cl al
  | Step.left a :: al => gap cl a + alignCost cl al
  | Step.right b :: al => gap cl b + alignCost cl al

/-- The sequence `A` with the character `c` inserted at position `p`. -/
def insertAt (A : List Char) (p : Nat) (c : Char) : List Char :=
  A.take p ++ c :: A.drop p

/-- The number of characters of a sequence that are canonical or ambiguous bases. -/
def countBases (cl : Classifier) (B : List Char) : Nat :=
  B.countP cl.isBase

/-- The sequence that the specification calls `X`: the longer of the two, and `A` when the
lengths are equal. -/
def longer (A B : List Char) : List Char :=
  if A.length ≥ B.length then A else B

/-- The sequence that the specification calls `Y`: the shorter of the two, and `B` when the
lengths are equal. -/
def shorter (A B : List Char) : List Char :=
  if A.length ≥ B.length then B else A

/-- The invariant of the memoization table during a call of `EditDistance_NW_Rec`: the table
has `M + 1` rows of `N + 1` entries and every entry is either `NOT_YET_COMPUTED` or the value of
the recurrence for its suffix pair. -/
structure MemoInv (cl : Classifier) (c : NW_MemoContext) (memo : List (List Int)) : Prop where
  /-- The table has `M + 1` rows. -/
  rows : memo.length = c.M + 1
  /-- Every row has `N + 1` entries. -/
  cols : ∀ i, i ≤ c.M → (memo.getD i []).length = c.N + 1
  /-- Every entry is the sentinel or the value of the recurrence. -/
  vals : ∀ i j, i ≤ c.M → j ≤ c.N →
    memoRead memo i j = NOT_YET_COMPUTED ∨ memoRead memo i j = dist cl (c.X.drop i) (c.Y.drop j)

/-- The table of a call on the sequences `X` and `Y` holds only values of the plain recurrence:
it has `|X| + 1` rows of `|Y| + 1` entries and every entry is either `NOT_YET_COMPUTED` or
`phi(i,j)` for its cell `(i,j)`. -/
def PhiTable (cl : Classifier) (X Y : List Char) (memo : List (List Int)) : Prop :=
  memo.length = X.length + 1 ∧
    (∀ i, i ≤ X.length → (memo.getD i []).length = Y.length + 1) ∧
    ∀ i j, i ≤ X.length → j ≤ Y.length →
      memoRead memo i j = NOT_YET_COMPUTED ∨ memoRead memo i j = phi cl X Y i j

/-! ## The engines with bounds-checked memory -/

/-- The outcome of a run in which every read and every write is checked against the extent of
the sequence, buffer or table it touches. -/
inductive Run (α : Type) where
  /-- The run ends with a value and every access was inside its extent. -/
  | value (a : α)
  /-- The run reads or writes outside an extent. -/
  | outOfBounds
  /-- The fuel of the embedding ran out. -/
  | outOfFuel
  deriving DecidableEq

/-- Sequencing of checked runs: the first failure ends the run. -/
def Run.bind {α β : Type} : Run α → (α → Run β) → Run β
  | Run.value a, f => f a
  | Run.outOfBounds, _ => Run.outOfBounds
  | Run.outOfFuel, _ => Run.outOfFuel

instance : Monad Run where
  pure := Run.value
  bind := Run.bind

/-- The checked read `A[i]` of a sequence of `lengthA` readable characters. -/
def readChar (A : List Char) (i : Nat) : Run Char :=
  match A[i]? with
  | some c => Run.value c
  | none => Run.outOfBounds

/-- The checked read `buf[i]` of a buffer. -/
def readLong (buf : List Int) (i : Nat) : Run Int :=
  match buf[i]? with
  | some v => Run.value v
  | none => Run.outOfBounds

/-- The checked write `buf[i] = v` of a buffer. -/
def writeLong (buf : List Int) (i : Nat) (v : Int) : Run (List Int) :=
  if i < buf.length then Run.value (buf.set i v) else Run.outOfBounds

/-- The checked read `memo[i][j]` of the memoization table. -/
def readMemo (memo : List (List Int)) (i j : Nat) : Run Int :=
  match memo[i]? with
  | some row => readLong row j
  | none => Run.outOfBounds

/-- The checked write `memo[i][j] = v` of the memoization table. -/
def writeMemo (memo : List (List Int)) (i j : Nat) (v : Int) : Run (List (List Int)) :=
  match memo[i]? with
  | some row =>
    match writeLong row j v with
    | Run.value row' => Run.value (memo.set i row')
    | Run.outOfBounds => Run.outOfBounds
    | Run.outOfFuel => Run.outOfFuel
  | none => Run.outOfBounds

/-- The function `EditDistance_NW_RecMemo` with checked memory.  The reads `c->X[i]` and
`c->Y[j]` of lines 56 and 57 come before the tests `i == c->M` and `j == c->N`. -/
def checkedRecMemo (cl : Classifier) (c : NW_MemoContext) :
    Nat → List (List Int) → Nat → Nat → Run (Int × List (List Int))
  | 0, _, _, _ => Run.outOfFuel
  | fuel + 1, memo, i, j => do
    let seen ← readMemo memo i j
    if seen = NOT_YET_COMPUTED then
      let Xi ← readChar c.X i
      let Yj ← readChar c.Y j
      let computed ←
        if i = c.M then
          if j = c.N then pure (0, memo)
          else do
            let r ← checkedRecMemo cl c fuel memo i (j + 1)
            pure (gap cl Yj + r.1, r.2)
        else if j = c.N then do
          let r ← checkedRecMemo cl c fuel memo (i + 1) j
          pure (gap cl Xi + r.1, r.2)
        else if !cl.isBase Xi then
          checkedRecMemo cl c fuel memo (i + 1) j
        else if !cl.isBase Yj then
          checkedRecMemo cl c fuel memo i (j + 1)
        else do
          let r1 ← checkedRecMemo cl c fuel memo (i + 1) (j + 1)
          let min := recSubst cl Xi Yj + r1.1
          let r2 ← checkedRecMemo cl c fuel r1.2 (i + 1) j
          let cas2 := INSERTION_COST + r2.1
          let min := if cas2 < min then cas2 else min
          let r3 ← checkedRecMemo cl c fuel r2.2 i (j + 1)
          let cas3 := INSERTION_COST + r3.1
          let min := if cas3 < min then cas3 else min
          pure (min, r3.2)
      let memo ← writeMemo computed.2 i j computed.1
      let res ← readMemo memo i j
      pure (res, memo)
    else do
      let res ← readMemo memo i j
      pure (res, memo)

/-- The function `EditDistance_NW_Rec` with checked memory. -/
def checkedRec (cl : Classifier) (A B : List Char) : Run Int := do
  let ctx := recContext A B
  let r ← checkedRecMemo cl ctx (ctx.M + ctx.N + 1) (memoAlloc ctx.M ctx.N) 0 0
  pure r.1

/-- The boundary loop of the buffer engines with checked memory.  The first argument is
`i + 1`. -/
def checkedInitColumn (cl : Classifier) (A : List Char) : Nat → List Int → Run (List Int)
  | 0, column => pure column
  | i + 1, column => do
    let a ← readChar A i
    let next ← readLong column (i + 1)
    let column ← writeLong column i (gap cl a + next)
    checkedInitColumn cl A i column

/-- The allocation of a column buffer, the write `column[size] = 0` and the boundary loop, with
checked memory. -/
def checkedBoundary (cl : Classifier) (A : List Char) : Run (List Int) := do
  let column ← writeLong (List.replicate (A.length + 1) 0) A.length 0
  checkedInitColumn cl A A.length column

/-- The inner loop of `EditDistance_NW_Iter` with checked memory.  The first `Nat` argument of
the recursion is `row_index + 1`. -/
def checkedIterRows (cl : Classifier) (A : List Char) (Bj : Char) :
    Nat → List Int → Int → Int → Run (List Int × Int × Int)
  | 0, columnM, right_element, diagonal_element =>
    pure (columnM, right_element, diagonal_element)
  | row_index + 1, columnM, right_element, diagonal_element => do
    let a ← readChar A row_index
    if !cl.isBase a then
      let columnM ← writeLong columnM row_index right_element
      checkedIterRows cl A Bj row_index columnM right_element diagonal_element
    else
      let below ← readLong columnM row_index
      let result := MIN (2 + below) (2 + right_element)
        (diagonal_element + mismatch_cost cl a Bj)
      let columnM ← writeLong columnM row_index result
      checkedIterRows cl A Bj row_index columnM result below

/-- The outer loop of `EditDistance_NW_Iter` with checked memory.  The first `Nat` argument of
the recursion is `col_index + 1`. -/
def checkedIterCols (cl : Classifier) (A B : List Char) :
    Nat → List Int → List Int → Run (List Int × List Int)
  | 0, columnM, columnN => pure (columnM, columnN)
  | col_index + 1, columnM, columnN => do
    let b ← readChar B col_index
    if !cl.isBase b then
      let top ← readLong columnM 0
      let columnN ← writeLong columnN (col_index + 1) top
      checkedIterCols cl A B col_index columnM columnN
    else
      let right_element ← readLong columnN col_index
      let diagonal_element ← readLong columnN (col_index + 1)
      let r ← checkedIterRows cl A b A.length columnM right_element diagonal_element
      let columnN ← writeLong columnN (col_index + 1) r.2.2
      checkedIterCols cl A B col_index r.1 columnN

/-- The function `EditDistance_NW_Iter` with checked memory.  Line 163 reads
`columnN[sizeN - 1]` before the loop; `sizeN - 1` is computed in the unsigned 64-bit type
`size_t`. -/
def checkedIter (cl : Classifier) (A B : List Char) : Run Int := do
  let columnM ← checkedBoundary cl A
  let columnN ← checkedBoundary cl B
  let _ ← readLong columnN ((B.length + 2 ^ 64 - 1) % 2 ^ 64)
  let _ ← readLong columnN B.length
  let r ← checkedIterCols cl A B B.length columnM columnN
  readLong r.1 0

/-! ## Memory lemmas -/

theorem getD_set {α : Type} (l : List α) (i k : Nat) (v d : α) :
    (l.set i v).getD k d = if i = k ∧ i < l.length then v else l.getD k d := by
  induction l generalizing i k with
  | nil => simp
  | cons b bs ih =>
    cases i with
    | zero => cases k <;> simp
    | succ i =>
      cases k with
      | zero => simp
      | succ k => simpa using ih i k

theorem rd_set (buf : List Int) (i k : Nat) (v : Int) :
    rd (buf.set i v) k = if i = k ∧ i < buf.length then v else rd buf k :=
  getD_set buf i k v 0

theorem rd_set_eq (buf : List Int) (i : Nat) (v : Int) (h : i < buf.length) :
    rd (buf.set i v) i = v := by
  rw [rd_set]; simp [h]

theorem rd_set_ne (buf : List Int) (i k : Nat) (v : Int) (h : i ≠ k) :
    rd (buf.set i v) k = rd buf k := by
  rw [rd_set]; simp [h]

theorem charAt_drop (A : List Char) (i : Nat) (h : i < A.length) :
    A.drop i = charAt A i :: A.drop (i + 1) := by
  unfold charAt
  induction A generalizing i with
  | nil => simp at h
  | cons a as ih =>
    cases i with
    | zero => simp
    | succ i =>
      simp only [List.drop_succ_cons, List.getD_cons_succ]
      exact ih i (by simpa using h)

/-! ## The recurrence on suffixes -/

@[simp] theorem dist_nil_nil (cl : Classifier) : dist cl [] [] = 0 := rfl

@[simp] theorem dist_nil_cons (cl : Classifier) (y : Char) (ys : List Char) :
    dist cl [] (y :: ys) = gap cl y + dist cl [] ys := rfl

@[simp] theorem dist_cons_nil (cl : Classifier) (x : Char) (xs : List Char) :
    dist cl (x :: xs) [] = gap cl x + dist cl xs [] := rfl

theorem dist_cons_cons (cl : Classifier) (x y : Char) (xs ys : List Char) :
    dist cl (x :: xs) (y :: ys) =
      if !cl.isBase x then dist cl xs (y :: ys)
      else if !cl.isBase y then dist cl (x :: xs) ys
      else min (recSubst cl x y + dist cl xs ys)
        (min (INSERTION_COST + dist cl xs (y :: ys)) (INSERTION_COST + dist cl (x :: xs) ys)) :=
  rfl

theorem gap_nonneg (cl : Classifier) (c : Char) : 0 ≤ gap cl c := by
  unfold gap INSERTION_COST; split <;> decide

theorem gap_of_not_base (cl : Classifier) (c : Char) (h : cl.isBase c = false) :
    gap cl c = 0 := by
  simp [gap, h]

theorem gap_of_base (cl : Classifier) (c : Char) (h : cl.isBase c = true) :
    gap cl c = 2 := by
  simp [gap, h, INSERTION_COST]

theorem recSubst_nonneg (cl : Classifier) (x y : Char) : 0 ≤ recSubst cl x y := by
  unfold recSubst SUBSTITUTION_UNKNOWN_COST SUBSTITUTION_COST
  split
  · decide
  · split <;> decide

/-- Skipping a non-base at the head of the first sequence. -/
theorem dist_skip_left (cl : Classifier) (x : Char) (xs ys : List Char)
    (h : cl.isBase x = false) : dist cl (x :: xs) ys = dist cl xs ys := by
  cases ys with
  | nil => simp [gap_of_not_base cl x h]
  | cons y ys => simp [dist_cons_cons, h]

/-- Skipping a non-base at the head of the second sequence. -/
theorem dist_skip_right (cl : Classifier) (y : Char) (xs ys : List Char)
    (h : cl.isBase y = false) : dist cl xs (y :: ys) = dist cl xs ys := by
  induction xs with
  | nil => simp [gap_of_not_base cl y h]
  | cons x xs ih =>
    by_cases hx : cl.isBase x = true
    · simp [dist_cons_cons, hx, h]
    · have hx' : cl.isBase x = false := by simpa using hx
      rw [dist_skip_left cl x xs _ hx', dist_skip_left cl x xs _ hx', ih]

theorem dist_nonneg (cl : Classifier) (xs ys : List Char) : 0 ≤ dist cl xs ys := by
  induction xs generalizing ys with
  | nil =>
    induction ys with
    | nil => simp
    | cons y ys ih => rw [dist_nil_cons]; have := gap_nonneg cl y; omega
  | cons x xs ihx =>
    induction ys with
    | nil => rw [dist_cons_nil]; have := gap_nonneg cl x; have := ihx []; omega
    | cons y ys ihy =>
      rw [dist_cons_cons]
      have h1 := ihx (y :: ys)
      have h2 := ihx ys
      have h3 := recSubst_nonneg cl x y
      split
      · exact h1
      · split
        · exact ihy
        · simp only [INSERTION_COST, le_min_iff]
          omega

theorem recSubst_eq_substCost (cl : Classifier) (hl : cl.Lawful) (x y : Char) :
    recSubst cl x y = substCost cl x y := by
  unfold recSubst substCost
  cases hx : cl.isUnknownBase x
  · cases hy : cl.isUnknownBase y
    · simp
    · simp [hl.same_unknown x y hx hy, SUBSTITUTION_COST, SUBSTITUTION_UNKNOWN_COST]
  · simp

theorem substCost_comm (cl : Classifier) (hl : cl.Lawful) (x y : Char) :
    substCost cl x y = substCost cl y x := by
  unfold substCost
  rw [hl.same_symm x y, Bool.or_comm]

theorem recSubst_comm (cl : Classifier) (hl : cl.Lawful) (x y : Char) :
    recSubst cl x y = recSubst cl y x := by
  rw [recSubst_eq_substCost cl hl, recSubst_eq_substCost cl hl, substCost_comm cl hl]

/-- With a lawful classifier the recurrence does not depend on the order of the sequences. -/
theorem dist_comm (cl : Classifier) (hl : cl.Lawful) :
    ∀ (n : Nat) (xs ys : List Char), xs.length + ys.length ≤ n →
      dist cl xs ys = dist cl ys xs := by
  intro n
  induction n with
  | zero =>
    intro xs ys h
    have hx : xs = [] := List.length_eq_zero.mp (by omega)
    have hy : ys = [] := List.length_eq_zero.mp (by omega)
    subst hx; subst hy; rfl
  | succ n ih =>
    intro xs ys h
    cases xs with
    | nil =>
      cases ys with
      | nil => rfl
      | cons y ys =>
        rw [dist_nil_cons, dist_cons_nil, ih [] ys (by simp at h ⊢; omega)]
    | cons x xs =>
      cases ys with
      | nil =>
        rw [dist_nil_cons, dist_cons_nil, ih xs [] (by simp at h ⊢; omega)]
      | cons y ys =>
        have hlen : xs.length + ys.length + 2 ≤ n + 1 := by
          simp only [List.length_cons] at h; omega
        by_cases hx : cl.isBase x = true
        · by_cases hy : cl.isBase y = true
          · rw [dist_cons_cons, dist_cons_cons]
            simp only [hx, hy, Bool.not_true, Bool.false_eq_true, if_false]
            rw [recSubst_comm cl hl x y, ih xs ys (by omega),
              ih xs (y :: ys) (by simp only [List.length_cons]; omega),
              ih (x :: xs) ys (by simp only [List.length_cons]; omega),
              min_comm (INSERTION_COST + dist cl (y :: ys) xs)]
          · have hy' : cl.isBase y = false := by simpa using hy
            rw [dist_skip_right cl y _ _ hy', dist_skip_left cl y _ _ hy']
            exact ih (x :: xs) ys (by simp only [List.length_cons]; omega)
        · have hx' : cl.isBase x = false := by simpa using hx
          rw [dist_skip_left cl x _ _ hx', dist_skip_right cl x _ _ hx']
          exact ih xs (y :: ys) (by simp only [List.length_cons]; omega)

theorem dist_symm (cl : Classifier) (hl : cl.Lawful) (xs ys : List Char) :
    dist cl xs ys = dist cl ys xs :=
  dist_comm cl hl _ xs ys (le_refl _)

theorem charAt_of_drop (A : List Char) (i : Nat) (x : Char) (xs : List Char)
    (h : A.drop i = x :: xs) : charAt A i = x ∧ A.drop (i + 1) = xs := by
  have hi : i < A.length := by
    by_contra hc
    rw [List.drop_of_length_le (by omega)] at h
    exact List.noConfusion h
  rw [charAt_drop A i hi] at h
  injection h with h1 h2
  exact ⟨h1, h2⟩

/-- With a lawful classifier the recurrence `phi` of the specification is the recurrence on
suffixes. -/
theorem phi_eq_dist (cl : Classifier) (hl : cl.Lawful) (X Y : List Char) :
    ∀ (n i j : Nat), (X.length - i) + (Y.length - j) ≤ n →
      phi cl X Y i j = dist cl (X.drop i) (Y.drop j) := by
  intro n
  induction n with
  | zero =>
    intro i j h
    rw [phi, if_pos (by omega), if_pos (by omega),
      List.drop_of_length_le (by omega), List.drop_of_length_le (by omega)]
    rfl
  | succ n ih =>
    intro i j h
    rw [phi]
    by_cases hi : X.length ≤ i
    · rw [if_pos hi, List.drop_of_length_le hi]
      by_cases hj : Y.length ≤ j
      · rw [if_pos hj, List.drop_of_length_le hj]; rfl
      · rw [if_neg hj, charAt_drop Y j (by omega), dist_nil_cons, ih i (j + 1) (by omega),
          List.drop_of_length_le hi]
    · rw [if_neg hi, charAt_drop X i (by omega)]
      by_cases hj : Y.length ≤ j
      · rw [if_pos hj, List.drop_of_length_le hj, dist_cons_nil, ih (i + 1) j (by omega),
          List.drop_of_length_le hj]
      · rw [if_neg hj, charAt_drop Y j (by omega), dist_cons_cons,
          ih (i + 1) j (by omega), ih i (j + 1) (by omega), ih (i + 1) (j + 1) (by omega),
          recSubst_eq_substCost cl hl, charAt_drop X i (by omega), charAt_drop Y j (by omega)]

/-! ## The memoized recursion -/

theorem memoRead_memoWrite (memo : List (List Int)) (i j i' j' : Nat) (v : Int) :
    memoRead (memoWrite memo i j v) i' j' =
      if i = i' ∧ j = j' ∧ i < memo.length ∧ j < (memo.getD i []).length then v
      else memoRead memo i' j' := by
  unfold memoRead memoWrite
  rw [getD_set]
  by_cases h : i = i' ∧ i < memo.length
  · rw [if_pos h, rd_set]
    obtain ⟨h1, h2⟩ := h
    subst h1
    by_cases hj : j = j' ∧ j < (memo.getD i []).length
    · rw [if_pos hj, if_pos ⟨rfl, hj.1, h2, hj.2⟩]
    · rw [if_neg hj, if_neg (fun hc => hj ⟨hc.2.1, hc.2.2.2⟩)]
  · rw [if_neg h, if_neg (fun hc => h ⟨hc.1, hc.2.2.1⟩)]

theorem memoWrite_length (memo : List (List Int)) (i j : Nat) (v : Int) :
    (memoWrite memo i j v).length = memo.length := by
  simp [memoWrite]

theorem memoWrite_row_length (memo : List (List Int)) (i j k : Nat) (v : Int) :
    ((memoWrite memo i j v).getD k []).length = (memo.getD k []).length := by
  unfold memoWrite
  rw [getD_set]
  split
  · rename_i h
    rw [List.length_set, h.1]
  · rfl

theorem memoAlloc_inv (cl : Classifier) (c : NW_MemoContext) :
    MemoInv cl c (memoAlloc c.M c.N) := by
  have hrow : ∀ i, i ≤ c.M →
      (memoAlloc c.M c.N).getD i [] = List.replicate (c.N + 1) NOT_YET_COMPUTED := by
    intro i hi
    unfold memoAlloc
    rw [List.getD_eq_getElem _ _ (by simp; omega)]
    simp
  refine ⟨by simp [memoAlloc], ?_, ?_⟩
  · intro i hi
    rw [hrow i hi]; simp
  · intro i j hi hj
    left
    unfold memoRead rd
    rw [hrow i hi, List.getD_eq_getElem _ _ (by simp; omega)]
    simp

theorem MemoInv.write {cl : Classifier} {c : NW_MemoContext} {memo : List (List Int)}
    (h : MemoInv cl c memo) (i j : Nat) (hi : i ≤ c.M) (hj : j ≤ c.N) :
    MemoInv cl c (memoWrite memo i j (dist cl (c.X.drop i) (c.Y.drop j))) ∧
      memoRead (memoWrite memo i j (dist cl (c.X.drop i) (c.Y.drop j))) i j =
        dist cl (c.X.drop i) (c.Y.drop j) := by
  have hin : i < memo.length := by rw [h.rows]; omega
  have hjn : j < (memo.getD i []).length := by rw [h.cols i hi]; omega
  refine ⟨⟨?_, ?_, ?_⟩, ?_⟩
  · rw [memoWrite_length, h.rows]
  · intro k hk
    rw [memoWrite_row_length, h.cols k hk]
  · intro i' j' hi' hj'
    rw [memoRead_memoWrite]
    split
    · rename_i hc
      right
      rw [hc.1, hc.2.1]
    · exact h.vals i' j' hi' hj'
  · rw [memoRead_memoWrite, if_pos ⟨rfl, rfl, hin, hjn⟩]

theorem seqMin_eq (a b c : Int) :
    (if c < (if b < a then b else a) then c else (if b < a then b else a)) =
      min a (min b c) := by
  simp only [min_def]
  split_ifs <;> omega

theorem recMemo_spec (cl : Classifier) (c : NW_MemoContext)
    (hM : c.M = c.X.length) (hN : c.N = c.Y.length) :
    ∀ (fuel : Nat) (memo : List (List Int)) (i j : Nat), i ≤ c.M → j ≤ c.N →
      (c.M - i) + (c.N - j) < fuel → MemoInv cl c memo →
      ∃ memo', EditDistance_NW_RecMemo cl c fuel memo i j =
          some (dist cl (c.X.drop i) (c.Y.drop j), memo') ∧ MemoInv cl c memo' := by
  intro fuel
  induction fuel with
  | zero => intro memo i j _ _ h; omega
  | succ fuel ih =>
    intro memo i j hi hj hfuel hinv
    rw [EditDistance_NW_RecMemo]
    by_cases hmem : memoRead memo i j = NOT_YET_COMPUTED
    · rw [if_pos hmem]
      -- the value computed on a miss
      dsimp only
      have key : ∀ (comp : Option (Int × List (List Int))) (m1 : List (List Int)),
          comp = some (dist cl (c.X.drop i) (c.Y.drop j), m1) → MemoInv cl c m1 →
          ∃ memo', memoStore i j comp = some (dist cl (c.X.drop i) (c.Y.drop j), memo') ∧
            MemoInv cl c memo' := by
        intro comp m1 hcomp hm1
        subst hcomp
        obtain ⟨hw1, hw2⟩ := hm1.write i j hi hj
        exact ⟨_, by simp only [memoStore, hw2], hw1⟩
      by_cases hiM : i = c.M
      · by_cases hjN : j = c.N
        · refine key _ memo ?_ hinv
          simp only [hiM, hjN, if_true]
          rw [hM, hN, List.drop_of_length_le (le_refl _), List.drop_of_length_le (le_refl _)]
          rfl
        · obtain ⟨m1, h1, hm1⟩ := ih memo i (j + 1) hi (by omega) (by omega) hinv
          refine key _ m1 ?_ hm1
          simp only [hiM, hjN, if_true, if_false]
          rw [hiM] at h1
          rw [h1]
          simp only
          rw [hM, List.drop_of_length_le (le_refl _), charAt_drop c.Y j (by omega), dist_nil_cons]
      · by_cases hjN : j = c.N
        · obtain ⟨m1, h1, hm1⟩ := ih memo (i + 1) j (by omega) hj (by omega) hinv
          refine key _ m1 ?_ hm1
          simp only [hiM, hjN, if_true, if_false]
          rw [hjN] at h1
          rw [h1]
          simp only
          rw [hN, List.drop_of_length_le (le_refl _), charAt_drop c.X i (by omega), dist_cons_nil]
        · have hxi := charAt_drop c.X i (by omega)
          have hyj := charAt_drop c.Y j (by omega)
          by_cases hbx : cl.isBase (charAt c.X i) = true
          · by_cases hby : cl.isBase (charAt c.Y j) = true
            · obtain ⟨m1, h1, hm1⟩ := ih memo (i + 1) (j + 1) (by omega) (by omega) (by omega) hinv
              obtain ⟨m2, h2, hm2⟩ := ih m1 (i + 1) j (by omega) hj (by omega) hm1
              obtain ⟨m3, h3, hm3⟩ := ih m2 i (j + 1) hi (by omega) (by omega) hm2
              refine key _ m3 ?_ hm3
              simp only [hiM, hjN, if_false, hbx, hby, Bool.not_true, Bool.false_eq_true, h1, h2, h3]
              rw [seqMin_eq, hxi, hyj, dist_cons_cons]
              simp only [hbx, hby, Bool.not_true, Bool.false_eq_true, if_false]
            · have hby' : cl.isBase (charAt c.Y j) = false := by simpa using hby
              obtain ⟨m1, h1, hm1⟩ := ih memo i (j + 1) hi (by omega) (by omega) hinv
              refine key _ m1 ?_ hm1
              simp only [hiM, hjN, if_false, hbx, hby', Bool.not_true, Bool.not_false,
                Bool.false_eq_true, if_true, h1]
              rw [hyj, dist_skip_right cl _ _ _ hby']
          · have hbx' : cl.isBase (charAt c.X i) = false := by simpa using hbx
            obtain ⟨m1, h1, hm1⟩ := ih memo (i + 1) j (by omega) hj (by omega) hinv
            refine key _ m1 ?_ hm1
            simp only [hiM, hjN, if_false, hbx', Bool.not_false, if_true, h1]
            rw [hxi, dist_skip_left cl _ _ _ hbx']
    · rw [if_neg hmem]
      rcases hinv.vals i j hi hj with h | h
      · exact absurd h hmem
      · exact ⟨memo, by rw [h], hinv⟩

theorem recContext_M (A B : List Char) : (recContext A B).M = (recContext A B).X.length := by
  unfold recContext; split <;> rfl

theorem recContext_N (A B : List Char) : (recContext A B).N = (recContext A B).Y.length := by
  unfold recContext; split <;> rfl

theorem recRun_spec (cl : Classifier) (A B : List Char) :
    ∃ final, recRun cl A B = some (dist cl (recContext A B).X (recContext A B).Y, final) ∧
      MemoInv cl (recContext A B) final := by
  have h := recMemo_spec cl (recContext A B) (recContext_M A B) (recContext_N A B)
    ((recContext A B).M + (recContext A B).N + 1) (memoAlloc (recContext A B).M (recContext A B).N)
    0 0 (Nat.zero_le _) (Nat.zero_le _) (by omega) (memoAlloc_inv cl _)
  simpa [recRun] using h

theorem rec_eq_dist_ctx (cl : Classifier) (A B : List Char) :
    EditDistance_NW_Rec cl A B = some (dist cl (recContext A B).X (recContext A B).Y) := by
  obtain ⟨final, h, _⟩ := recRun_spec cl A B
  simp [EditDistance_NW_Rec, h]

theorem rec_eq_dist (cl : Classifier) (hl : cl.Lawful) (A B : List Char) :
    EditDistance_NW_Rec cl A B = some (dist cl A B) := by
  rw [rec_eq_dist_ctx]
  unfold recContext
  split
  · rfl
  · simp only; rw [dist_symm cl hl]

theorem dist_nil_right (cl : Classifier) (xs : List Char) : dist cl xs [] = gapSum cl xs := by
  induction xs with
  | nil => rfl
  | cons x xs ih => rw [dist_cons_nil, ih]; rfl

theorem dist_nil_left (cl : Classifier) (ys : List Char) : dist cl [] ys = gapSum cl ys := by
  cases ys <;> rfl

theorem MIN_eq (a b c : Int) : MIN a b c = min a (min b c) := by
  simp only [MIN, min_def]
  split_ifs <;> omega

theorem mismatch_cost_eq (cl : Classifier) (a b : Char) :
    mismatch_cost cl a b = recSubst cl a b := by
  unfold mismatch_cost recSubst SUBSTITUTION_UNKNOWN_COST SUBSTITUTION_COST
  cases cl.isUnknownBase a <;> cases cl.isSameBase a b <;> rfl

theorem initColumn_spec (cl : Classifier) (A : List Char) :
    ∀ (k : Nat) (col : List Int), k ≤ A.length → col.length = A.length + 1 →
      (∀ i, k ≤ i → i ≤ A.length → rd col i = gapSum cl (A.drop i)) →
      (initColumn cl A k col).length = A.length + 1 ∧
        ∀ i, i ≤ A.length → rd (initColumn cl A k col) i = gapSum cl (A.drop i) := by
  intro k
  induction k with
  | zero =>
    intro col _ hlen h
    exact ⟨hlen, fun i hi => h i (Nat.zero_le _) hi⟩
  | succ k ih =>
    intro col hk hlen h
    rw [initColumn]
    apply ih _ (by omega) (by rw [List.length_set, hlen])
    intro i hki hi
    rw [rd_set]
    by_cases hik : k = i
    · subst hik
      rw [if_pos ⟨rfl, by omega⟩, h (k + 1) (le_refl _) hk, charAt_drop A k (by omega)]
      rfl
    · rw [if_neg (fun hc => hik hc.1)]
      exact h i (by omega) hi

theorem boundary_spec (cl : Classifier) (A : List Char) :
    (boundary cl A).length = A.length + 1 ∧
      ∀ i, i ≤ A.length → rd (boundary cl A) i = gapSum cl (A.drop i) := by
  unfold boundary
  apply initColumn_spec cl A A.length _ (le_refl _) (by simp)
  intro i h1 h2
  have : i = A.length := by omega
  subst this
  rw [rd_set_eq _ _ _ (by simp), List.drop_of_length_le (le_refl _)]
  rfl

theorem iterRows_spec (cl : Classifier) (A B : List Char) (j : Nat) (hj : j < B.length)
    (hb : cl.isBase (charAt B j) = true) :
    ∀ (r : Nat) (colM : List Int) (right diag : Int), r ≤ A.length →
      colM.length = A.length + 1 →
      (∀ i, i < r → rd colM i = dist cl (A.drop i) (B.drop (j + 1))) →
      (∀ i, r ≤ i → i < A.length → rd colM i = dist cl (A.drop i) (B.drop j)) →
      right = dist cl (A.drop r) (B.drop j) →
      diag = dist cl (A.drop r) (B.drop (j + 1)) →
      (iterRows cl A (charAt B j) r colM right diag).1.length = A.length + 1 ∧
        (∀ i, i < A.length →
          rd (iterRows cl A (charAt B j) r colM right diag).1 i =
            dist cl (A.drop i) (B.drop j)) ∧
        (iterRows cl A (charAt B j) r colM right diag).2.2 = dist cl A (B.drop (j + 1)) := by
  intro r
  induction r with
  | zero =>
    intro colM right diag _ hlen _ hdone _ hdiag
    exact ⟨hlen, fun i hi => hdone i (Nat.zero_le _) hi, by simpa using hdiag⟩
  | succ r ih =>
    intro colM right diag hr hlen htodo hdone hright hdiag
    have hA := charAt_drop A r (by omega)
    have hB := charAt_drop B j hj
    rw [iterRows]
    by_cases hx : cl.isBase (charAt A r) = true
    · simp only [hx, Bool.not_true, Bool.false_eq_true, if_false]
      have hval : MIN (2 + rd colM r) (2 + right)
          (diag + mismatch_cost cl (charAt A r) (charAt B j)) =
          dist cl (A.drop r) (B.drop j) := by
        rw [hA, hB, dist_cons_cons]
        simp only [hx, hb, Bool.not_true, Bool.false_eq_true, if_false]
        rw [← hA, ← hB, MIN_eq, mismatch_cost_eq, htodo r (by omega), hright, hdiag]
        simp only [INSERTION_COST, min_def]
        split_ifs <;> omega
      rw [hval]
      apply ih _ _ _ (by omega) (by rw [List.length_set, hlen])
      · intro i hi
        rw [rd_set_ne _ _ _ _ (by omega)]
        exact htodo i (by omega)
      · intro i hri hi
        rw [rd_set]
        by_cases hik : r = i
        · subst hik
          rw [if_pos ⟨rfl, by omega⟩]
        · rw [if_neg (fun hc => hik hc.1)]
          exact hdone i (by omega) hi
      · rfl
      · exact htodo r (by omega)
    · have hx' : cl.isBase (charAt A r) = false := by simpa using hx
      simp only [hx', Bool.not_false, if_true]
      have e1 : dist cl (A.drop r) (B.drop j) = dist cl (A.drop (r + 1)) (B.drop j) := by
        rw [hA, dist_skip_left cl _ _ _ hx']
      have e2 : dist cl (A.drop r) (B.drop (j + 1)) =
          dist cl (A.drop (r + 1)) (B.drop (j + 1)) := by
        rw [hA, dist_skip_left cl _ _ _ hx']
      apply ih _ _ _ (by omega) (by rw [List.length_set, hlen])
      · intro i hi
        rw [rd_set_ne _ _ _ _ (by omega)]
        exact htodo i (by omega)
      · intro i hri hi
        rw [rd_set]
        by_cases hik : r = i
        · subst hik
          rw [if_pos ⟨rfl, by omega⟩, hright, e1]
        · rw [if_neg (fun hc => hik hc.1)]
          exact hdone i (by omega) hi
      · rw [hright, e1]
      · rw [hdiag, e2]

theorem iterCols_spec (cl : Classifier) (A B : List Char) :
    ∀ (c : Nat) (colM colN : List Int), c ≤ B.length →
      colM.length = A.length + 1 → colN.length = B.length + 1 →
      (∀ i, i < A.length → rd colM i = dist cl (A.drop i) (B.drop c)) →
      (∀ k, k ≤ c → rd colN k = dist cl [] (B.drop k)) →
      ∀ i, i < A.length → rd (iterCols cl A B c colM colN).1 i = dist cl (A.drop i) B := by
  intro c
  induction c with
  | zero =>
    intro colM colN _ _ _ hM _ i hi
    simpa [iterCols] using hM i hi
  | succ c ih =>
    intro colM colN hc hlenM hlenN hM hN
    have hB := charAt_drop B c (by omega)
    rw [iterCols]
    by_cases hy : cl.isBase (charAt B c) = true
    · simp only [hy, Bool.not_true, Bool.false_eq_true, if_false]
      have hdropA : A.drop A.length = [] := List.drop_of_length_le (le_refl _)
      obtain ⟨h1, h2, _⟩ := iterRows_spec cl A B c (by omega) hy A.length colM
        (rd colN c) (rd colN (c + 1)) (le_refl _) hlenM hM (fun i h1 h2 => by omega)
        (by rw [hN c (by omega), hdropA]) (by rw [hN (c + 1) (le_refl _), hdropA])
      apply ih _ _ (by omega) h1 (by rw [List.length_set, hlenN]) h2
      intro k hk
      rw [rd_set_ne _ _ _ _ (by omega)]
      exact hN k (by omega)
    · have hy' : cl.isBase (charAt B c) = false := by simpa using hy
      simp only [hy', Bool.not_false, if_true]
      apply ih _ _ (by omega) hlenM (by rw [List.length_set, hlenN])
      · intro i hi
        rw [hM i hi, hB, dist_skip_right cl _ _ _ hy']
      · intro k hk
        rw [rd_set_ne _ _ _ _ (by omega)]
        exact hN k (by omega)

/-- On a non-empty first sequence the iterative engine computes the recurrence. -/
theorem iter_eq_dist (cl : Classifier) (A B : List Char) (hA : 0 < A.length) :
    EditDistance_NW_Iter cl A B = dist cl A B := by
  unfold EditDistance_NW_Iter
  obtain ⟨hlA, hvA⟩ := boundary_spec cl A
  obtain ⟨hlB, hvB⟩ := boundary_spec cl B
  have h := iterCols_spec cl A B B.length (boundary cl A) (boundary cl B) (le_refl _) hlA hlB
    (fun i hi => by
      rw [hvA i (by omega), List.drop_of_length_le (le_refl _), dist_nil_right])
    (fun k hk => by rw [hvB k hk, dist_nil_left]) 0 hA
  simpa using h

/-- On an empty first sequence the iterative engine returns `columnM[0]`, which is `0`. -/
theorem iter_nil (cl : Classifier) (B : List Char) : EditDistance_NW_Iter cl [] B = 0 := by
  have h : ∀ (c : Nat) (colN : List Int),
      (iterCols cl [] B c [0] colN).1 = [0] := by
    intro c
    induction c with
    | zero => intro colN; rfl
    | succ c ih =>
      intro colN
      rw [iterCols]
      split
      · exact ih _
      · simp only [List.length_nil, iterRows]
        exact ih _
  unfold EditDistance_NW_Iter
  have hb : boundary cl [] = [0] := rfl
  rw [hb, h]
  rfl

theorem dna_lawful : dna.Lawful := by
  refine ⟨?_, ?_, ?_⟩
  · intro x y
    simp only [dna]
    exact Bool.beq_comm
  · intro x y hx hy
    simp only [dna, beq_iff_eq, beq_eq_false_iff_ne, ne_eq] at *
    subst hy
    exact hx
  · intro x _ _
    simp [dna]

/-- Leaving the head of the first sequence unpaired. -/
theorem dist_le_left (cl : Classifier) (x : Char) (xs ys : List Char) :
    dist cl (x :: xs) ys ≤ gap cl x + dist cl xs ys := by
  induction ys with
  | nil => rw [dist_cons_nil]
  | cons y ys ih =>
    by_cases hx : cl.isBase x = true
    · by_cases hy : cl.isBase y = true
      · rw [dist_cons_cons]
        simp only [hx, hy, Bool.not_true, Bool.false_eq_true, if_false, gap_of_base cl x hx,
          INSERTION_COST]
        exact le_trans (min_le_right _ _) (min_le_left _ _)
      · have hy' : cl.isBase y = false := by simpa using hy
        rw [dist_skip_right cl y _ _ hy', dist_skip_right cl y _ _ hy']
        exact ih
    · have hx' : cl.isBase x = false := by simpa using hx
      rw [dist_skip_left cl x _ _ hx', gap_of_not_base cl x hx']
      omega

/-- Leaving the head of the second sequence unpaired. -/
theorem dist_le_right (cl : Classifier) (y : Char) (xs ys : List Char) :
    dist cl xs (y :: ys) ≤ gap cl y + dist cl xs ys := by
  induction xs with
  | nil => rw [dist_nil_cons]
  | cons x xs ih =>
    by_cases hx : cl.isBase x = true
    · by_cases hy : cl.isBase y = true
      · rw [dist_cons_cons]
        simp only [hx, hy, Bool.not_true, Bool.false_eq_true, if_false, gap_of_base cl y hy,
          INSERTION_COST]
        exact le_trans (min_le_right _ _) (min_le_right _ _)
      · have hy' : cl.isBase y = false := by simpa using hy
        rw [dist_skip_right cl y _ _ hy', gap_of_not_base cl y hy']
        omega
    · have hx' : cl.isBase x = false := by simpa using hx
      rw [dist_skip_left cl x _ _ hx', dist_skip_left cl x _ _ hx']
      exact ih

/-- Pairing the two heads when both are bases. -/
theorem dist_le_pair (cl : Classifier) (x y : Char) (xs ys : List Char)
    (hx : cl.isBase x = true) (hy : cl.isBase y = true) :
    dist cl (x :: xs) (y :: ys) ≤ recSubst cl x y + dist cl xs ys := by
  rw [dist_cons_cons]
  simp only [hx, hy, Bool.not_true, Bool.false_eq_true, if_false]
  exact min_le_left _ _

/-- No alignment is cheaper than the recurrence. -/
theorem dist_le_alignCost (cl : Classifier) (hl : cl.Lawful) :
    ∀ al : List Step, pairsBases cl al = true →
      dist cl (firstOf al) (secondOf al) ≤ alignCost cl al := by
  intro al
  induction al with
  | nil => intro _; simp [firstOf, secondOf, alignCost]
  | cons s al ih =>
    intro h
    cases s with
    | pair a b =>
      simp only [pairsBases, Bool.and_eq_true] at h
      have h1 := dist_le_pair cl a b (firstOf al) (secondOf al) h.1.1 h.1.2
      have h2 := ih h.2
      rw [recSubst_eq_substCost cl hl] at h1
      simp only [firstOf, secondOf, alignCost]
      omega
    | left a =>
      simp only [pairsBases] at h
      have h1 := dist_le_left cl a (firstOf al) (secondOf al)
      have h2 := ih h
      simp only [firstOf, secondOf, alignCost]
      omega
    | right b =>
      simp only [pairsBases] at h
      have h1 := dist_le_right cl b (firstOf al) (secondOf al)
      have h2 := ih h
      simp only [firstOf, secondOf, alignCost]
      omega

/-- Some alignment costs exactly the value of the recurrence. -/
theorem exists_alignment (cl : Classifier) (hl : cl.Lawful) :
    ∀ (n : Nat) (xs ys : List Char), xs.length + ys.length ≤ n →
      ∃ al, IsAlignment cl al xs ys ∧ alignCost cl al = dist cl xs ys := by
  intro n
  induction n with
  | zero =>
    intro xs ys h
    have hx : xs = [] := List.length_eq_zero.mp (by omega)
    have hy : ys = [] := List.length_eq_zero.mp (by omega)
    subst hx; subst hy
    exact ⟨[], ⟨rfl, rfl, rfl⟩, rfl⟩
  | succ n ih =>
    intro xs ys h
    have stepL : ∀ (x : Char) (xs' ys' : List Char), xs'.length + ys'.length ≤ n →
        ∃ al, IsAlignment cl al (x :: xs') ys' ∧
          alignCost cl al = gap cl x + dist cl xs' ys' := by
      intro x xs' ys' hn
      obtain ⟨al, ⟨a1, a2, a3⟩, hc⟩ := ih xs' ys' hn
      exact ⟨Step.left x :: al, ⟨by simp [firstOf, a1], by simp [secondOf, a2],
        by simp [pairsBases, a3]⟩, by simp [alignCost, hc]⟩
    have stepR : ∀ (y : Char) (xs' ys' : List Char), xs'.length + ys'.length ≤ n →
        ∃ al, IsAlignment cl al xs' (y :: ys') ∧
          alignCost cl al = gap cl y + dist cl xs' ys' := by
      intro y xs' ys' hn
      obtain ⟨al, ⟨a1, a2, a3⟩, hc⟩ := ih xs' ys' hn
      exact ⟨Step.right y :: al, ⟨by simp [firstOf, a1], by simp [secondOf, a2],
        by simp [pairsBases, a3]⟩, by simp [alignCost, hc]⟩
    cases xs with
    | nil =>
      cases ys with
      | nil => exact ⟨[], ⟨rfl, rfl, rfl⟩, rfl⟩
      | cons y ys =>
        obtain ⟨al, ha, hc⟩ := stepR y [] ys (by simp at h ⊢; omega)
        exact ⟨al, ha, by rw [hc, dist_nil_cons]⟩
    | cons x xs =>
      cases ys with
      | nil =>
        obtain ⟨al, ha, hc⟩ := stepL x xs [] (by simp at h ⊢; omega)
        exact ⟨al, ha, by rw [hc, dist_cons_nil]⟩
      | cons y ys =>
        simp only [List.length_cons] at h
        by_cases hx : cl.isBase x = true
        · by_cases hy : cl.isBase y = true
          · rw [dist_cons_cons]
            simp only [hx, hy, Bool.not_true, Bool.false_eq_true, if_false]
            rcases min_choice (recSubst cl x y + dist cl xs ys)
              (min (INSERTION_COST + dist cl xs (y :: ys))
                (INSERTION_COST + dist cl (x :: xs) ys)) with h1 | h1
            · rw [h1]
              obtain ⟨al, ⟨a1, a2, a3⟩, hc⟩ := ih xs ys (by omega)
              exact ⟨Step.pair x y :: al, ⟨by simp [firstOf, a1], by simp [secondOf, a2],
                by simp [pairsBases, a3, hx, hy]⟩,
                by simp [alignCost, hc, recSubst_eq_substCost cl hl]⟩
            · rw [h1]
              rcases min_choice (INSERTION_COST + dist cl xs (y :: ys))
                (INSERTION_COST + dist cl (x :: xs) ys) with h2 | h2
              · rw [h2]
                obtain ⟨al, ha, hc⟩ := stepL x xs (y :: ys)
                  (by simp only [List.length_cons]; omega)
                exact ⟨al, ha, by rw [hc, gap_of_base cl x hx]; rfl⟩
              · rw [h2]
                obtain ⟨al, ha, hc⟩ := stepR y (x :: xs) ys
                  (by simp only [List.length_cons]; omega)
                exact ⟨al, ha, by rw [hc, gap_of_base cl y hy]; rfl⟩
          · have hy' : cl.isBase y = false := by simpa using hy
            obtain ⟨al, ha, hc⟩ := stepR y (x :: xs) ys
              (by simp only [List.length_cons]; omega)
            exact ⟨al, ha, by
              rw [hc, gap_of_not_base cl y hy', dist_skip_right cl y _ _ hy']; omega⟩
        · have hx' : cl.isBase x = false := by simpa using hx
          obtain ⟨al, ha, hc⟩ := stepL x xs (y :: ys)
            (by simp only [List.length_cons]; omega)
          exact ⟨al, ha, by
            rw [hc, gap_of_not_base cl x hx', dist_skip_left cl x _ _ hx']; omega⟩

/-- A sequence of canonical bases is at distance `0` from itself. -/
theorem dist_self (cl : Classifier) (hl : cl.Lawful) (A : List Char)
    (hA : ∀ a ∈ A, cl.isBase a = true ∧ cl.isUnknownBase a = false) : dist cl A A = 0 := by
  induction A with
  | nil => rfl
  | cons a as ih =>
    have ha := hA a (List.mem_cons_self a as)
    have h0 := ih (fun b hb => hA b (List.mem_cons_of_mem a hb))
    have h1 := dist_le_pair cl a a as as ha.1 ha.1
    have h2 := dist_nonneg cl (a :: as) (a :: as)
    have h3 : recSubst cl a a = 0 := by
      simp [recSubst, ha.2, hl.same_self a ha.1 ha.2]
    omega

/-- A non-base inserted anywhere in the first sequence does not change the recurrence. -/
theorem dist_insert_left (cl : Classifier) (c : Char) (hc : cl.isBase c = false)
    (pre suf : List Char) : ∀ ys, dist cl (pre ++ c :: suf) ys = dist cl (pre ++ suf) ys := by
  induction pre with
  | nil => intro ys; exact dist_skip_left cl c suf ys hc
  | cons x pre ih =>
    intro ys
    have hfun : dist cl (pre ++ c :: suf) = dist cl (pre ++ suf) := funext ih
    show distRow cl x (dist cl (pre ++ c :: suf)) ys = distRow cl x (dist cl (pre ++ suf)) ys
    rw [hfun]

theorem dist_insertAt_left (cl : Classifier) (c : Char) (hc : cl.isBase c = false)
    (A B : List Char) (p : Nat) : dist cl (insertAt A p c) B = dist cl A B := by
  unfold insertAt
  rw [dist_insert_left cl c hc]
  rw [List.take_append_drop]

theorem recContext_X (A B : List Char) : (recContext A B).X = longer A B := by
  unfold recContext longer; split <;> rfl

theorem recContext_Y (A B : List Char) : (recContext A B).Y = shorter A B := by
  unfold recContext shorter; split <;> rfl

/-! ## The claims -/

set_option maxRecDepth 100000 in
/-- C1 (fails on the code): the iterative engine does not return the value of the memoized
engine when the first sequence is empty.  On `A = ""` and `B = "A"` the memoized engine returns
`2`, the cost of the unpaired base, and the iterative engine returns `0`. -/
theorem C1_iter_differs_from_rec_on_empty_first :
    EditDistance_NW_Rec dna [] ['A'] = some 2 ∧ EditDistance_NW_Iter dna [] ['A'] = 0 := by
  decide

set_option maxRecDepth 100000 in
/-- C2 (fails on the code): with more rows than the tile edge `K = 64` the cache-aware engine
does not return the value of the iterative engine.  On `A` made of 65 times the base `A` and
`B = "A"` the iterative engine returns `128` and the cache-aware engine returns `4`. -/
theorem C2_aware_differs_from_iter_across_tiles :
    EditDistance_NW_Iter dna (List.replicate 65 'A') ['A'] = 128 ∧
      EditDistance_NW_Aware dna (List.replicate 65 'A') ['A'] = some 4 := by
  decide

set_option maxRecDepth 100000 in
/-- C3 (fails on the code): when the recursion splits the range of `A` the cache-oblivious
engine does not return the value of the iterative engine.  On `A` made of 130 times the base
`A` and `B = "A"` the iterative engine returns `258` and the cache-oblivious engine returns
`132`. -/
theorem C3_oblivious_differs_from_iter_on_split :
    EditDistance_NW_Iter dna (List.replicate 130 'A') ['A'] = 258 ∧
      EditDistance_NW_Oblivious dna (List.replicate 130 'A') ['A'] = some 132 := by
  decide

/-- C4: with a lawful classifier the memoized engine returns the minimum cost of a global
alignment of `A` with `B`: it returns a value, some alignment has exactly this cost, and no
alignment is cheaper. -/
theorem C4_rec_is_minimum_alignment_cost (cl : Classifier) (hl : cl.Lawful)
    (A B : List Char) :
    ∃ v, EditDistance_NW_Rec cl A B = some v ∧
      (∃ al, IsAlignment cl al A B ∧ alignCost cl al = v) ∧
      ∀ al, IsAlignment cl al A B → v ≤ alignCost cl al := by
  refine ⟨dist cl A B, rec_eq_dist cl hl A B, exists_alignment cl hl _ A B (le_refl _), ?_⟩
  intro al h
  obtain ⟨h1, h2, h3⟩ := h
  have := dist_le_alignCost cl hl al h3
  rwa [h1, h2] at this

/-- Witness of C4 on `A = "AATCG"`, `B = "AACG"` with the classifier `dna`. -/
theorem C4_rec_is_minimum_alignment_cost_witness :
    dna.Lawful ∧ ∃ v, EditDistance_NW_Rec dna ['A', 'A', 'T', 'C', 'G'] ['A', 'A', 'C', 'G'] =
        some v ∧
      (∃ al, IsAlignment dna al ['A', 'A', 'T', 'C', 'G'] ['A', 'A', 'C', 'G'] ∧
        alignCost dna al = v) ∧
      ∀ al, IsAlignment dna al ['A', 'A', 'T', 'C', 'G'] ['A', 'A', 'C', 'G'] →
        v ≤ alignCost dna al :=
  ⟨dna_lawful, C4_rec_is_minimum_alignment_cost dna dna_lawful _ _⟩

theorem phiTable_iff_memoInv (cl : Classifier) (hl : cl.Lawful) (A B : List Char)
    (memo : List (List Int)) :
    PhiTable cl (longer A B) (shorter A B) memo ↔ MemoInv cl (recContext A B) memo := by
  have hphi : ∀ i j, phi cl (longer A B) (shorter A B) i j =
      dist cl ((longer A B).drop i) ((shorter A B).drop j) :=
    fun i j => phi_eq_dist cl hl _ _ _ i j (le_refl _)
  have hM : (recContext A B).M = (longer A B).length := by
    rw [recContext_M, recContext_X]
  have hN : (recContext A B).N = (shorter A B).length := by
    rw [recContext_N, recContext_Y]
  constructor
  · rintro ⟨h1, h2, h3⟩
    refine ⟨by rw [hM]; exact h1, fun i hi => ?_, fun i j hi hj => ?_⟩
    · rw [hN]; exact h2 i (by rw [← hM]; exact hi)
    · rw [recContext_X, recContext_Y, ← hphi]
      exact h3 i j (by rw [← hM]; exact hi) (by rw [← hN]; exact hj)
  · intro h
    refine ⟨by rw [← hM]; exact h.rows, fun i hi => ?_, fun i j hi hj => ?_⟩
    · rw [← hN]; exact h.cols i (by rw [hM]; exact hi)
    · have := h.vals i j (by rw [hM]; exact hi) (by rw [hN]; exact hj)
      rw [recContext_X, recContext_Y, ← hphi] at this
      exact this

/-- C5: with a lawful classifier the memoized engine returns `phi(0,0)` for the plain
recurrence `phi` on the longer sequence `X` and the shorter sequence `Y`; the table it leaves
holds at every cell the sentinel or `phi(i,j)`; and every call of `EditDistance_NW_RecMemo` on a
cell `(i,j)`, from a table that holds only sentinels and values of `phi`, returns `phi(i,j)` and
leaves such a table, so that a table hit and a computation give the same value. -/
theorem C5_rec_is_phi (cl : Classifier) (hl : cl.Lawful) (A B : List Char) :
    EditDistance_NW_Rec cl A B = some (phi cl (longer A B) (shorter A B) 0 0) ∧
      (∃ final, recRun cl A B = some (phi cl (longer A B) (shorter A B) 0 0, final) ∧
        PhiTable cl (longer A B) (shorter A B) final) ∧
      ∀ (fuel : Nat) (memo : List (List Int)) (i j : Nat),
        i ≤ (longer A B).length → j ≤ (shorter A B).length →
        ((longer A B).length - i) + ((shorter A B).length - j) < fuel →
        PhiTable cl (longer A B) (shorter A B) memo →
        ∃ memo', EditDistance_NW_RecMemo cl (recContext A B) fuel memo i j =
            some (phi cl (longer A B) (shorter A B) i j, memo') ∧
          PhiTable cl (longer A B) (shorter A B) memo' := by
  have hphi : ∀ i j, phi cl (longer A B) (shorter A B) i j =
      dist cl ((longer A B).drop i) ((shorter A B).drop j) :=
    fun i j => phi_eq_dist cl hl _ _ _ i j (le_refl _)
  have hM : (recContext A B).M = (longer A B).length := by
    rw [recContext_M, recContext_X]
  have hN : (recContext A B).N = (shorter A B).length := by
    rw [recContext_N, recContext_Y]
  obtain ⟨final, hrun, hinv⟩ := recRun_spec cl A B
  rw [recContext_X, recContext_Y] at hrun
  have h00 : phi cl (longer A B) (shorter A B) 0 0 = dist cl (longer A B) (shorter A B) := by
    rw [hphi]; rfl
  refine ⟨?_, ⟨final, ?_, (phiTable_iff_memoInv cl hl A B final).mpr hinv⟩, ?_⟩
  · rw [h00, EditDistance_NW_Rec, hrun]
  · rw [h00, hrun]
  · intro fuel memo i j hi hj hfuel htab
    obtain ⟨memo', hcall, hinv'⟩ := recMemo_spec cl (recContext A B) (recContext_M A B)
      (recContext_N A B) fuel memo i j (by rw [hM]; exact hi) (by rw [hN]; exact hj)
      (by rw [hM, hN]; exact hfuel) ((phiTable_iff_memoInv cl hl A B memo).mp htab)
    rw [recContext_X, recContext_Y, ← hphi] at hcall
    exact ⟨memo', hcall, (phiTable_iff_memoInv cl hl A B memo').mpr hinv'⟩

/-- Witness of C5 on `A = "AACG"`, `B = "AATCG"` with the classifier `dna`. -/
theorem C5_rec_is_phi_witness :
    dna.Lawful ∧
      EditDistance_NW_Rec dna ['A', 'A', 'C', 'G'] ['A', 'A', 'T', 'C', 'G'] =
        some (phi dna (longer ['A', 'A', 'C', 'G'] ['A', 'A', 'T', 'C', 'G'])
          (shorter ['A', 'A', 'C', 'G'] ['A', 'A', 'T', 'C', 'G']) 0 0) :=
  ⟨dna_lawful, (C5_rec_is_phi dna dna_lawful _ _).1⟩

/-- C6: with a lawful classifier the memoized engine returns the same value on `(A, B)` and on
`(B, A)`, whatever the lengths. -/
theorem C6_rec_symmetric (cl : Classifier) (hl : cl.Lawful) (A B : List Char) :
    ∃ v, EditDistance_NW_Rec cl A B = some v ∧ EditDistance_NW_Rec cl B A = some v :=
  ⟨dist cl A B, rec_eq_dist cl hl A B, by rw [rec_eq_dist cl hl B A, dist_symm cl hl B A]⟩

/-- Witness of C6 on two sequences of the same length, `A = "ANT"` and `B = "NCT"`. -/
theorem C6_rec_symmetric_witness :
    dna.Lawful ∧ ∃ v, EditDistance_NW_Rec dna ['A', 'N', 'T'] ['N', 'C', 'T'] = some v ∧
      EditDistance_NW_Rec dna ['N', 'C', 'T'] ['A', 'N', 'T'] = some v :=
  ⟨dna_lawful, C6_rec_symmetric dna dna_lawful _ _⟩

set_option maxRecDepth 100000 in
/-- C7 (fails on the code): with the empty sequence as first argument and `B = "A"`, which has
one base, the memoized engine returns `2` and the three buffer engines return `0`. -/
theorem C7_empty_first_argument :
    countBases dna ['A'] = 1 ∧ EditDistance_NW_Rec dna [] ['A'] = some 2 ∧
      EditDistance_NW_Iter dna [] ['A'] = 0 ∧ EditDistance_NW_Aware dna [] ['A'] = some 0 ∧
      EditDistance_NW_Oblivious dna [] ['A'] = some 0 := by
  decide

/-- C8: with a lawful classifier, on a sequence `A` made of canonical bases only the memoized
engine and the iterative engine both return `0` for `(A, A)`. -/
theorem C8_identity (cl : Classifier) (hl : cl.Lawful) (A : List Char)
    (hA : ∀ a ∈ A, cl.isBase a = true ∧ cl.isUnknownBase a = false) :
    EditDistance_NW_Rec cl A A = some 0 ∧ EditDistance_NW_Iter cl A A = 0 := by
  refine ⟨by rw [rec_eq_dist cl hl, dist_self cl hl A hA], ?_⟩
  cases A with
  | nil => exact iter_nil cl []
  | cons a as =>
    rw [iter_eq_dist cl _ _ (by simp), dist_self cl hl _ hA]

/-- Witness of C8 on `A = "GATTACA"` with the classifier `dna`. -/
theorem C8_identity_witness :
    dna.Lawful ∧
      (∀ a ∈ ['G', 'A', 'T', 'T', 'A', 'C', 'A'],
        dna.isBase a = true ∧ dna.isUnknownBase a = false) ∧
      EditDistance_NW_Rec dna ['G', 'A', 'T', 'T', 'A', 'C', 'A']
        ['G', 'A', 'T', 'T', 'A', 'C', 'A'] = some 0 ∧
      EditDistance_NW_Iter dna ['G', 'A', 'T', 'T', 'A', 'C', 'A']
        ['G', 'A', 'T', 'T', 'A', 'C', 'A'] = 0 :=
  ⟨dna_lawful, by decide, C8_identity dna dna_lawful _ (by decide)⟩

/-- C9: with a lawful classifier the memoized engine returns a value on `(A, B)`, and the same
value when a non-base character `c` is inserted at any position `p` of `A` or at any position
`q` of `B` (a position past the end of a sequence appends `c` to it). -/
theorem C9_rec_non_base_insertion (cl : Classifier) (hl : cl.Lawful) (A B : List Char)
    (c : Char) (p q : Nat) (hc : cl.isBase c = false) :
    ∃ v, EditDistance_NW_Rec cl A B = some v ∧
      EditDistance_NW_Rec cl (insertAt A p c) B = some v ∧
      EditDistance_NW_Rec cl A (insertAt B q c) = some v := by
  refine ⟨dist cl A B, rec_eq_dist cl hl A B, ?_, ?_⟩
  · rw [rec_eq_dist cl hl, dist_insertAt_left cl c hc]
  · rw [rec_eq_dist cl hl, dist_symm cl hl, dist_insertAt_left cl c hc, dist_symm cl hl]

/-- Witness of C9: a gap character inserted in `A = "ACG"` at position 1 and in `B = "ATG"` at
position 3; either insertion makes the changed sequence the longer one. -/
theorem C9_rec_non_base_insertion_witness :
    dna.Lawful ∧ dna.isBase '-' = false ∧
      ∃ v, EditDistance_NW_Rec dna ['A', 'C', 'G'] ['A', 'T', 'G'] = some v ∧
        EditDistance_NW_Rec dna (insertAt ['A', 'C', 'G'] 1 '-') ['A', 'T', 'G'] = some v ∧
        EditDistance_NW_Rec dna ['A', 'C', 'G'] (insertAt ['A', 'T', 'G'] 3 '-') = some v :=
  ⟨dna_lawful, by decide,
    C9_rec_non_base_insertion dna dna_lawful _ _ '-' 1 3 (by decide)⟩

set_option maxRecDepth 100000 in
/-- C10 (fails on the code): a non-base character inserted at position `0` of `A` changes the
value of the cache-aware engine.  On `A = "A"` and `B = "A"` the engine returns `0`; with the
non-base `-` inserted in front of `A` it returns `2`. -/
theorem C10_aware_changes_on_leading_non_base :
    dna.isBase '-' = false ∧ insertAt ['A'] 0 '-' = ['-', 'A'] ∧
      EditDistance_NW_Aware dna ['A'] ['A'] = some 0 ∧
      EditDistance_NW_Aware dna (insertAt ['A'] 0 '-') ['A'] = some 2 := by
  decide

/-! ## Bounds on the recurrence -/

theorem gap_le_two (cl : Classifier) (c : Char) : gap cl c ≤ 2 := by
  unfold gap INSERTION_COST; split <;> decide

theorem recSubst_le_one (cl : Classifier) (x y : Char) : recSubst cl x y ≤ 1 := by
  unfold recSubst SUBSTITUTION_UNKNOWN_COST SUBSTITUTION_COST
  split
  · decide
  · split <;> decide

/-- The recurrence is at most the cost of leaving every character unpaired. -/
theorem dist_le_lengths (cl : Classifier) (xs ys : List Char) :
    dist cl xs ys ≤ 2 * ((xs.length : Int) + (ys.length : Int)) := by
  induction xs with
  | nil =>
    induction ys with
    | nil => simp
    | cons y ys ih =>
      rw [dist_nil_cons]
      have := gap_le_two cl y
      simp only [List.length_cons, List.length_nil, Nat.cast_add, Nat.cast_one] at ih ⊢
      omega
  | cons x xs ih =>
    have h1 := dist_le_left cl x xs ys
    have h2 := gap_le_two cl x
    simp only [List.length_cons, Nat.cast_add, Nat.cast_one]
    omega

theorem countBases_cons (cl : Classifier) (y : Char) (ys : List Char) :
    (countBases cl (y :: ys) : Int) = countBases cl ys + (if cl.isBase y then 1 else 0) := by
  unfold countBases
  rw [List.countP_cons]
  split <;> simp

theorem gap_eq_ite (cl : Classifier) (y : Char) :
    gap cl y = 2 * (if cl.isBase y then (1 : Int) else 0) := by
  unfold gap INSERTION_COST; split <;> rfl

/-- Each base that the second sequence has in excess is left unpaired. -/
theorem dist_ge_excess (cl : Classifier) :
    ∀ (n : Nat) (xs ys : List Char), xs.length + ys.length ≤ n →
      2 * ((countBases cl ys : Int) - (countBases cl xs : Int)) ≤ dist cl xs ys := by
  intro n
  induction n with
  | zero =>
    intro xs ys h
    have hx : xs = [] := List.length_eq_zero.mp (by omega)
    have hy : ys = [] := List.length_eq_zero.mp (by omega)
    subst hx; subst hy
    simp [countBases]
  | succ n ih =>
    intro xs ys h
    cases xs with
    | nil =>
      cases ys with
      | nil => simp [countBases]
      | cons y ys =>
        have := ih [] ys (by simp at h ⊢; omega)
        rw [dist_nil_cons, countBases_cons, gap_eq_ite]
        omega
    | cons x xs =>
      cases ys with
      | nil =>
        have := ih xs [] (by simp at h ⊢; omega)
        have hg := gap_nonneg cl x
        rw [dist_cons_nil, countBases_cons]
        split <;> omega
      | cons y ys =>
        simp only [List.length_cons] at h
        have h1 := ih xs ys (by omega)
        have h2 := ih xs (y :: ys) (by simp only [List.length_cons]; omega)
        have h3 := ih (x :: xs) ys (by simp only [List.length_cons]; omega)
        have hs := recSubst_nonneg cl x y
        rw [countBases_cons] at h2
        rw [countBases_cons] at h3
        rw [dist_cons_cons, countBases_cons, countBases_cons]
        by_cases hx : cl.isBase x = true
        · by_cases hy : cl.isBase y = true
          · simp only [hx, hy, Bool.not_true, Bool.false_eq_true, if_false, if_true,
              INSERTION_COST, le_min_iff] at h2 h3 ⊢
            omega
          · have hy' : cl.isBase y = false := by simpa using hy
            simp only [hx, hy', Bool.not_true, Bool.not_false, Bool.false_eq_true, if_false,
              if_true] at h2 h3 ⊢
            omega
        · have hx' : cl.isBase x = false := by simpa using hx
          simp only [hx', Bool.not_false, Bool.false_eq_true, if_false, if_true] at h2 h3 ⊢
          omega

/-- Appending a canonical base to a sequence without ambiguous base costs at most one
insertion. -/
theorem dist_append_le (cl : Classifier) (hl : cl.Lawful) (c : Char)
    (hc : cl.isBase c = true) (A : List Char)
    (hA : ∀ a ∈ A, cl.isBase a = true → cl.isUnknownBase a = false) :
    dist cl A (A ++ [c]) ≤ 2 := by
  induction A with
  | nil =>
    show dist cl [] [c] ≤ 2
    rw [dist_nil_cons, gap_of_base cl c hc]
    simp
  | cons a as ih =>
    have h0 := ih (fun b hb => hA b (List.mem_cons_of_mem a hb))
    by_cases ha : cl.isBase a = true
    · have hu := hA a (List.mem_cons_self a as) ha
      have h1 := dist_le_pair cl a a as (as ++ [c]) ha ha
      have h3 : recSubst cl a a = 0 := by
        simp [recSubst, hu, hl.same_self a ha hu]
      rw [List.cons_append]
      omega
    · have ha' : cl.isBase a = false := by simpa using ha
      rw [List.cons_append, dist_skip_left cl a _ _ ha', dist_skip_right cl a _ _ ha']
      exact h0

theorem countBases_append_base (cl : Classifier) (c : Char) (hc : cl.isBase c = true)
    (A : List Char) : countBases cl (A ++ [c]) = countBases cl A + 1 := by
  simp [countBases, List.countP_append, hc]

theorem dist_append_eq (cl : Classifier) (hl : cl.Lawful) (c : Char)
    (hc : cl.isBase c = true) (A : List Char)
    (hA : ∀ a ∈ A, cl.isBase a = true → cl.isUnknownBase a = false) :
    dist cl A (A ++ [c]) = 2 := by
  have h1 := dist_append_le cl hl c hc A hA
  have h2 := dist_ge_excess cl _ A (A ++ [c]) (le_refl _)
  rw [countBases_append_base cl c hc] at h2
  push_cast at h2
  omega

/-! ## The cache-aware engine on a single row of tiles -/

theorem awareRows_spec (cl : Classifier) (K : Nat) (A B : List Char) (j : Nat)
    (hj : j < B.length) (hb : cl.isBase (charAt B j) = true) (hK : A.length ≤ K) :
    ∀ (r : Nat) (colM : List Int) (right diag : Int), r ≤ A.length →
      colM.length = A.length + 1 →
      (∀ i, i < r → cl.isBase (charAt A i) = true →
        rd colM i = dist cl (A.drop i) (B.drop (j + 1))) →
      (∀ i, r ≤ i → i < A.length → cl.isBase (charAt A i) = true →
        rd colM i = dist cl (A.drop i) (B.drop j)) →
      right = dist cl (A.drop r) (B.drop j) →
      diag = dist cl (A.drop r) (B.drop (j + 1)) →
      (awareRows cl K A (charAt B j) (A.length - 1) r colM right diag).1.length =
          A.length + 1 ∧
        (∀ i, i < A.length → cl.isBase (charAt A i) = true →
          rd (awareRows cl K A (charAt B j) (A.length - 1) r colM right diag).1 i =
            dist cl (A.drop i) (B.drop j)) ∧
        (awareRows cl K A (charAt B j) (A.length - 1) r colM right diag).2.2 =
          dist cl A (B.drop (j + 1)) := by
  intro r
  induction r with
  | zero =>
    intro colM right diag _ hlen _ hdone _ hdiag
    exact ⟨hlen, fun i hi hbi => hdone i (Nat.zero_le _) hi hbi, by simpa using hdiag⟩
  | succ r ih =>
    intro colM right diag hr hlen htodo hdone hright hdiag
    have hA := charAt_drop A r (by omega)
    have hB := charAt_drop B j hj
    have hin : ((r : Nat) : Int) > ((A.length - 1 : Nat) : Int) - (K : Int) := by omega
    rw [awareRows, if_pos hin]
    by_cases hx : cl.isBase (charAt A r) = true
    · simp only [hx, if_true]
      have hval : MIN (2 + rd colM r) (2 + right)
          (diag + mismatch_cost cl (charAt A r) (charAt B j)) =
          dist cl (A.drop r) (B.drop j) := by
        rw [hA, hB, dist_cons_cons]
        simp only [hx, hb, Bool.not_true, Bool.false_eq_true, if_false]
        rw [← hA, ← hB, MIN_eq, mismatch_cost_eq, htodo r (by omega) hx, hright, hdiag]
        simp only [INSERTION_COST, min_def]
        split_ifs <;> omega
      rw [hval]
      apply ih _ _ _ (by omega) (by rw [List.length_set, hlen])
      · intro i hi hbi
        rw [rd_set_ne _ _ _ _ (by omega)]
        exact htodo i (by omega) hbi
      · intro i hri hi hbi
        rw [rd_set]
        by_cases hik : r = i
        · subst hik
          rw [if_pos ⟨rfl, by omega⟩]
        · rw [if_neg (fun hc => hik hc.1)]
          exact hdone i (by omega) hi hbi
      · rfl
      · exact htodo r (by omega) hx
    · have hx' : cl.isBase (charAt A r) = false := by simpa using hx
      simp only [hx', Bool.false_eq_true, if_false]
      have e1 : dist cl (A.drop r) (B.drop j) = dist cl (A.drop (r + 1)) (B.drop j) := by
        rw [hA, dist_skip_left cl _ _ _ hx']
      have e2 : dist cl (A.drop r) (B.drop (j + 1)) =
          dist cl (A.drop (r + 1)) (B.drop (j + 1)) := by
        rw [hA, dist_skip_left cl _ _ _ hx']
      apply ih _ _ _ (by omega) hlen
      · intro i hi hbi
        exact htodo i (by omega) hbi
      · intro i hri hi hbi
        by_cases hik : r = i
        · subst hik
          rw [hbi] at hx'
          exact absurd hx' (by simp)
        · exact hdone i (by omega) hi hbi
      · rw [hright, e1]
      · rw [hdiag, e2]

/-- The invariant of the column buffers of the cache-aware engine before the column `c - 1` is
swept, when the sequence `A` fits in one row of tiles: at the rows that hold a base `columnM`
has the values of the recurrence for column `c`, and `columnN` still has its boundary values
up to index `c`. -/
theorem awareCols_spec (cl : Classifier) (K : Nat) (A B : List Char) (outerI : Nat)
    (hK : A.length ≤ K) (hA : 0 < A.length) :
    ∀ (b : Nat) (colM colN : List Int), b ≤ B.length →
      colM.length = A.length + 1 → colN.length = B.length + 1 →
      (∀ i, i < A.length → cl.isBase (charAt A i) = true →
        rd colM i = dist cl (A.drop i) (B.drop b)) →
      (∀ k, k ≤ b → rd colN k = dist cl [] (B.drop k)) →
      (awareCols cl K A B (A.length - 1) outerI b colM colN).1.length = A.length + 1 ∧
      (awareCols cl K A B (A.length - 1) outerI b colM colN).2.length = B.length + 1 ∧
      (∀ i, i < A.length → cl.isBase (charAt A i) = true →
        rd (awareCols cl K A B (A.length - 1) outerI b colM colN).1 i =
          dist cl (A.drop i) (B.drop (min b (outerI + 1 - K)))) ∧
      (∀ k, k ≤ min b (outerI + 1 - K) →
        rd (awareCols cl K A B (A.length - 1) outerI b colM colN).2 k =
          dist cl [] (B.drop k)) := by
  intro b
  induction b with
  | zero =>
    intro colM colN _ hlenM hlenN hM hN
    simp only [awareCols, Nat.zero_min]
    exact ⟨hlenM, hlenN, hM, hN⟩
  | succ b ih =>
    intro colM colN hb hlenM hlenN hM hN
    have hB := charAt_drop B b (by omega)
    rw [awareCols]
    by_cases hin : ((b : Nat) : Int) > (outerI : Int) - (K : Int)
    · rw [if_pos hin]
      have hmin : min (b + 1) (outerI + 1 - K) = min b (outerI + 1 - K) := by
        simp only [Nat.min_def]; split_ifs <;> omega
      rw [hmin]
      by_cases hy : cl.isBase (charAt B b) = true
      · simp only [hy, if_true]
        have hdropA : A.drop A.length = [] := List.drop_of_length_le (le_refl _)
        have hrows := awareRows_spec cl K A B b (by omega) hy hK A.length colM
          (rd colN b) (rd colN (b + 1)) (le_refl _) hlenM hM (fun i h1 h2 => by omega)
          (by rw [hN b (by omega), hdropA]) (by rw [hN (b + 1) (le_refl _), hdropA])
        have hs : A.length - 1 + 1 = A.length := by omega
        rw [hs]
        obtain ⟨h1, h2, _⟩ := hrows
        apply ih _ _ (by omega) h1 (by rw [List.length_set, hlenN]) h2
        intro k hk
        rw [rd_set_ne _ _ _ _ (by omega)]
        exact hN k (by omega)
      · have hy' : cl.isBase (charAt B b) = false := by simpa using hy
        simp only [hy', Bool.false_eq_true, if_false]
        apply ih _ _ (by omega) hlenM (by rw [List.length_set, hlenN])
        · intro i hi hbi
          rw [hM i hi hbi, hB, dist_skip_right cl _ _ _ hy']
        · intro k hk
          rw [rd_set_ne _ _ _ _ (by omega)]
          exact hN k (by omega)
    · rw [if_neg hin]
      have hmin : min (b + 1) (outerI + 1 - K) = b + 1 := by
        simp only [Nat.min_def]; split_ifs <;> omega
      rw [hmin]
      exact ⟨hlenM, hlenN, hM, hN⟩

theorem awareTileCols_spec (cl : Classifier) (K : Nat) (A B : List Char)
    (hK : A.length ≤ K) (hA : 0 < A.length) :
    ∀ (fuel t : Nat) (colM colN : List Int), t ≤ fuel → t ≤ B.length →
      colM.length = A.length + 1 → colN.length = B.length + 1 →
      (∀ i, i < A.length → cl.isBase (charAt A i) = true →
        rd colM i = dist cl (A.drop i) (B.drop t)) →
      (∀ k, k ≤ t → rd colN k = dist cl [] (B.drop k)) →
      ∃ r, awareTileCols cl K A B (A.length - 1) fuel t colM colN = some r ∧
        ∀ i, i < A.length → cl.isBase (charAt A i) = true →
          rd r.1 i = dist cl (A.drop i) B := by
  intro fuel
  induction fuel with
  | zero =>
    intro t colM colN ht _ _ _ hM _
    have : t = 0 := by omega
    subst this
    exact ⟨(colM, colN), rfl, by simpa using hM⟩
  | succ fuel ih =>
    intro t colM colN ht htB hlenM hlenN hM hN
    cases t with
    | zero => exact ⟨(colM, colN), rfl, by simpa using hM⟩
    | succ outerI =>
      rw [awareTileCols]
      obtain ⟨h1, h2, h3, h4⟩ := awareCols_spec cl K A B outerI hK hA (outerI + 1) colM colN
        htB hlenM hlenN hM hN
      have hmin : min (outerI + 1) (outerI + 1 - K) = outerI + 1 - K := by
        simp only [Nat.min_def]; split_ifs <;> omega
      rw [hmin] at h3 h4
      exact ih (outerI + 1 - K) _ _ (by omega) (by omega) h1 h2 h3 h4

/-- When `A` is not empty, fits in one row of tiles and starts with a base, the cache-aware
engine with tile edge `K` computes the recurrence. -/
theorem awareWith_eq_dist (cl : Classifier) (K : Nat) (A B : List Char)
    (hA : 0 < A.length) (hK : A.length ≤ K) (h0 : cl.isBase (charAt A 0) = true) :
    awareWith cl K A B = some (dist cl A B) := by
  obtain ⟨hlA, hvA⟩ := boundary_spec cl A
  obtain ⟨hlB, hvB⟩ := boundary_spec cl B
  obtain ⟨r, hr, hval⟩ := awareTileCols_spec cl K A B hK hA B.length B.length
    (boundary cl A) (boundary cl B) (le_refl _) (le_refl _) hlA hlB
    (fun i hi _ => by
      rw [hvA i (by omega), List.drop_of_length_le (le_refl _), dist_nil_right])
    (fun k hk => by rw [hvB k hk, dist_nil_left])
  obtain ⟨m, hm⟩ : ∃ m, A.length = m + 1 := ⟨A.length - 1, by omega⟩
  have hstep : awareTileRows cl K A B A.length A.length (boundary cl A) (boundary cl B) =
      some r := by
    rw [hm, awareTileRows]
    have hm' : m = A.length - 1 := by omega
    rw [hm', hr]
    have hz : A.length - 1 + 1 - K = 0 := by omega
    simp only [hz]
    cases (A.length - 1) <;> rfl
  unfold awareWith
  rw [hstep]
  simp only
  rw [hval 0 hA h0]
  rfl

/-! ## The cache-oblivious engine when the range of `A` is not split -/

theorem blockRows_zero (cl : Classifier) (A : List Char) (Bj : Char) :
    ∀ (r : Nat) (colM : List Int) (right diag : Int),
      blockRows cl A Bj 0 r colM right diag = iterRows cl A Bj r colM right diag := by
  intro r
  induction r with
  | zero => intro colM right diag; rfl
  | succ r ih =>
    intro colM right diag
    have h0 : ((r : Nat) : Int) ≥ 0 := by omega
    rw [blockRows, iterRows, if_pos h0]
    split
    · exact ih _ _ _
    · exact ih _ _ _

theorem blockCols_compose (cl : Classifier) (A B : List Char) (sA eA : Int) (s' s : Nat)
    (hs : s' ≤ s) :
    ∀ (k : Nat) (colN colM : List Int), s ≤ k →
      blockCols cl A B sA eA (s' : Int) s
          (blockCols cl A B sA eA (s : Int) k colN colM).1
          (blockCols cl A B sA eA (s : Int) k colN colM).2 =
        blockCols cl A B sA eA (s' : Int) k colN colM := by
  intro k
  induction k with
  | zero =>
    intro colN colM hk
    have : s = 0 := by omega
    subst this
    rfl
  | succ k ih =>
    intro colN colM hk
    by_cases hin : s ≤ k
    · have h1 : ((k : Nat) : Int) ≥ (s : Int) := by omega
      have h2 : ((k : Nat) : Int) ≥ (s' : Int) := by omega
      rw [blockCols, blockCols, if_pos h1, if_pos h2]
      split
      · exact ih _ _ hin
      · exact ih _ _ hin
    · have hsk : s = k + 1 := by omega
      have h1 : ¬ ((k : Nat) : Int) ≥ (s : Int) := by omega
      rw [blockCols, if_neg h1, hsk]

theorem blockCols_eq_iterCols (cl : Classifier) (A B : List Char) :
    ∀ (k : Nat) (colN colM : List Int),
      blockCols cl A B 0 ((A.length : Int) - 1) ((0 : Nat) : Int) k colN colM =
        ((iterCols cl A B k colM colN).2, (iterCols cl A B k colM colN).1) := by
  intro k
  induction k with
  | zero => intro colN colM; rfl
  | succ k ih =>
    intro colN colM
    have h0 : ((k : Nat) : Int) ≥ ((0 : Nat) : Int) := by omega
    have hm : ((A.length : Int) - 1 + 1).toNat = A.length := by simp
    rw [blockCols, iterCols, if_pos h0]
    split
    · rw [ih]; rfl
    · rw [hm, blockRows_zero, ih]

/-- When the range of `A` is never split, the recursion performs the column passes of one
block over the whole range of `B`, in decreasing order. -/
theorem obliviousRec_no_split (cl : Classifier) (S : Nat) (A B : List Char)
    (hm : A.length ≤ S + 1) :
    ∀ (fuel s e : Nat) (colN colM : List Int), s ≤ e → e - s < fuel →
      EditDistance_NW_Oblivious_Rec cl S A B fuel 0 ((A.length : Int) - 1) (s : Int)
          ((e : Int) - 1) colN colM =
        some (blockCols cl A B 0 ((A.length : Int) - 1) (s : Int) e colN colM) := by
  intro fuel
  induction fuel with
  | zero => intro s e _ _ _ h; omega
  | succ fuel ih =>
    intro s e colN colM hse hfuel
    rw [EditDistance_NW_Oblivious_Rec]
    simp only
    have hmS : (A.length : Int) - 1 - 0 ≤ (S : Int) := by omega
    by_cases hn : (e : Int) - 1 - (s : Int) ≤ (S : Int)
    · rw [if_pos ⟨hn, hmS⟩]
      have he : ((e : Int) - 1 + 1).toNat = e := by simp
      rw [Process_Block, he]
    · rw [if_neg (fun hc => hn hc.1), if_pos (by omega)]
      have hnn : (0 : Int) ≤ (e : Int) - 1 - (s : Int) := by omega
      rw [Int.tdiv_eq_ediv hnn (by decide)]
      obtain ⟨mid, hmid⟩ : ∃ mid : Nat,
          (mid : Int) = (e : Int) - 1 - ((e : Int) - 1 - (s : Int)) / 2 :=
        ⟨((e : Int) - 1 - ((e : Int) - 1 - (s : Int)) / 2).toNat, by
          rw [Int.toNat_of_nonneg]; omega⟩
      rw [← hmid]
      have hsm : s ≤ mid := by omega
      have hme : mid ≤ e := by omega
      rw [ih mid e colN colM hme (by omega)]
      simp only
      rw [ih s mid _ _ hsm (by omega)]
      rw [blockCols_compose cl A B _ _ s mid hsm e colN colM hme]

/-- When the range of `A` is never split, the cache-oblivious engine with threshold `S` returns
the value of the iterative engine. -/
theorem obliviousWith_eq_iter (cl : Classifier) (S : Nat) (A B : List Char)
    (hm : A.length ≤ S + 1) :
    obliviousWith cl S A B = some (EditDistance_NW_Iter cl A B) := by
  have h := obliviousRec_no_split cl S A B hm (A.length + B.length + 1) 0 B.length
    (boundary cl B) (boundary cl A) (Nat.zero_le _) (by omega)
  rw [blockCols_eq_iterCols] at h
  unfold obliviousWith EditDistance_NW_Iter
  simp only [Nat.cast_zero] at h
  simp only [h]

theorem dist_single (cl : Classifier) (x y : Char) (hx : cl.isBase x = true)
    (hy : cl.isBase y = true) : dist cl [x] [y] = recSubst cl x y := by
  rw [dist_cons_cons]
  simp only [hx, hy, Bool.not_true, Bool.false_eq_true, if_false, dist_nil_nil, dist_nil_cons,
    dist_cons_nil, gap_of_base cl x hx, gap_of_base cl y hy, INSERTION_COST]
  have := recSubst_le_one cl x y
  simp only [min_def]
  split_ifs <;> omega

theorem recSubst_unknown_left (cl : Classifier) (u b : Char)
    (hu : cl.isUnknownBase u = true) : recSubst cl u b = 1 := by
  simp [recSubst, hu, SUBSTITUTION_UNKNOWN_COST]

theorem recSubst_unknown_right (cl : Classifier) (hl : cl.Lawful) (u b : Char)
    (hu : cl.isUnknownBase u = true) : recSubst cl b u = 1 := by
  rw [recSubst_comm cl hl, recSubst_unknown_left cl u b hu]

/-! ## The claims, continued -/

/-- C11: with a lawful classifier, for an ambiguous base `u` and any base `b` each of the four
engines returns `SUBSTITUTION_UNKNOWN_COST = 1` on the one-character sequences `(u, b)` and
`(b, u)`. -/
theorem C11_ambiguous_base_costs_one (cl : Classifier) (hl : cl.Lawful) (u b : Char)
    (hu : cl.isBase u = true) (hua : cl.isUnknownBase u = true) (hb : cl.isBase b = true) :
    (EditDistance_NW_Rec cl [u] [b] = some SUBSTITUTION_UNKNOWN_COST ∧
      EditDistance_NW_Iter cl [u] [b] = SUBSTITUTION_UNKNOWN_COST ∧
      EditDistance_NW_Aware cl [u] [b] = some SUBSTITUTION_UNKNOWN_COST ∧
      EditDistance_NW_Oblivious cl [u] [b] = some SUBSTITUTION_UNKNOWN_COST) ∧
    (EditDistance_NW_Rec cl [b] [u] = some SUBSTITUTION_UNKNOWN_COST ∧
      EditDistance_NW_Iter cl [b] [u] = SUBSTITUTION_UNKNOWN_COST ∧
      EditDistance_NW_Aware cl [b] [u] = some SUBSTITUTION_UNKNOWN_COST ∧
      EditDistance_NW_Oblivious cl [b] [u] = some SUBSTITUTION_UNKNOWN_COST) := by
  have h1 : dist cl [u] [b] = SUBSTITUTION_UNKNOWN_COST := by
    rw [dist_single cl u b hu hb, recSubst_unknown_left cl u b hua]; rfl
  have h2 : dist cl [b] [u] = SUBSTITUTION_UNKNOWN_COST := by
    rw [dist_single cl b u hb hu, recSubst_unknown_right cl hl u b hua]; rfl
  have all : ∀ x y : Char, cl.isBase x = true →
      EditDistance_NW_Rec cl [x] [y] = some (dist cl [x] [y]) ∧
      EditDistance_NW_Iter cl [x] [y] = dist cl [x] [y] ∧
      EditDistance_NW_Aware cl [x] [y] = some (dist cl [x] [y]) ∧
      EditDistance_NW_Oblivious cl [x] [y] = some (dist cl [x] [y]) := by
    intro x y hx
    have hi := iter_eq_dist cl [x] [y] (by simp)
    refine ⟨rec_eq_dist cl hl _ _, hi, ?_, ?_⟩
    · exact awareWith_eq_dist cl K [x] [y] (by simp) (by simp [K]) hx
    · rw [← hi]
      exact obliviousWith_eq_iter cl S [x] [y] (by simp)
  have a1 := all u b hu
  have a2 := all b u hb
  rw [h1] at a1
  rw [h2] at a2
  exact ⟨a1, a2⟩

/-- Witness of C11 on the ambiguous base `N` and the canonical base `A`. -/
theorem C11_ambiguous_base_costs_one_witness :
    dna.Lawful ∧ dna.isBase 'N' = true ∧ dna.isUnknownBase 'N' = true ∧
      dna.isBase 'A' = true ∧
      (EditDistance_NW_Rec dna ['N'] ['A'] = some SUBSTITUTION_UNKNOWN_COST ∧
        EditDistance_NW_Iter dna ['N'] ['A'] = SUBSTITUTION_UNKNOWN_COST ∧
        EditDistance_NW_Aware dna ['N'] ['A'] = some SUBSTITUTION_UNKNOWN_COST ∧
        EditDistance_NW_Oblivious dna ['N'] ['A'] = some SUBSTITUTION_UNKNOWN_COST) ∧
      (EditDistance_NW_Rec dna ['A'] ['N'] = some SUBSTITUTION_UNKNOWN_COST ∧
        EditDistance_NW_Iter dna ['A'] ['N'] = SUBSTITUTION_UNKNOWN_COST ∧
        EditDistance_NW_Aware dna ['A'] ['N'] = some SUBSTITUTION_UNKNOWN_COST ∧
        EditDistance_NW_Oblivious dna ['A'] ['N'] = some SUBSTITUTION_UNKNOWN_COST) :=
  ⟨dna_lawful, by decide, by decide, by decide,
    C11_ambiguous_base_costs_one dna dna_lawful 'N' 'A' (by decide) (by decide) (by decide)⟩

set_option maxRecDepth 100000 in
/-- C13 (fails on the code): the value of the cache-aware engine depends on the tile edge.  On
`A` made of 65 times the base `A` and `B = "A"` the engine returns `4` with the tile edge `64`
of the source and `128` with the tile edge `65`. -/
theorem C13_aware_depends_on_tile_edge :
    awareWith dna 64 (List.replicate 65 'A') ['A'] = some 4 ∧
      awareWith dna 65 (List.replicate 65 'A') ['A'] = some 128 := by
  decide

set_option maxRecDepth 100000 in
/-- C14 (fails on the code): the value of the cache-oblivious engine depends on the threshold.
On `A` made of 130 times the base `A` and `B = "A"` the engine returns `132` with the threshold
`128` of the source and `258` with the threshold `129`. -/
theorem C14_oblivious_depends_on_threshold :
    obliviousWith dna 128 (List.replicate 130 'A') ['A'] = some 132 ∧
      obliviousWith dna 129 (List.replicate 130 'A') ['A'] = some 258 := by
  decide

/-- C15 as stated fails: on `A = "N"`, a single ambiguous base, and the canonical base `A`
appended, the memoized engine returns `3` and not `INSERTION_COST`. -/
theorem C15_counterexample_ambiguous :
    dna.isBase 'A' = true ∧ dna.isUnknownBase 'A' = false ∧
      EditDistance_NW_Rec dna ['N'] (['N'] ++ ['A']) = some 3 ∧
      EditDistance_NW_Rec dna ['N'] (['N'] ++ ['A']) ≠ some INSERTION_COST := by
  decide

/-- C15 amended: with a lawful classifier, for every sequence `A` that holds no ambiguous base
and every canonical base `c`, the memoized engine returns `INSERTION_COST = 2` on `A` and `A`
with `c` appended. -/
theorem C15_append_canonical_base (cl : Classifier) (hl : cl.Lawful) (A : List Char)
    (c : Char) (hA : ∀ a ∈ A, cl.isBase a = true → cl.isUnknownBase a = false)
    (hc : cl.isBase c = true) (_hcu : cl.isUnknownBase c = false) :
    EditDistance_NW_Rec cl A (A ++ [c]) = some INSERTION_COST := by
  rw [rec_eq_dist cl hl, dist_append_eq cl hl c hc A hA]
  rfl

/-- Witness of the amended C15 on `A = "GA-TTACA"`, which holds a non-base, and `c = 'G'`. -/
theorem C15_append_canonical_base_witness :
    dna.Lawful ∧
      (∀ a ∈ ['G', 'A', '-', 'T', 'T', 'A', 'C', 'A'],
        dna.isBase a = true → dna.isUnknownBase a = false) ∧
      dna.isBase 'G' = true ∧ dna.isUnknownBase 'G' = false ∧
      EditDistance_NW_Rec dna ['G', 'A', '-', 'T', 'T', 'A', 'C', 'A']
        (['G', 'A', '-', 'T', 'T', 'A', 'C', 'A'] ++ ['G']) = some INSERTION_COST :=
  ⟨dna_lawful, by decide, by decide, by decide,
    C15_append_canonical_base dna dna_lawful _ 'G' (by decide) (by decide) (by decide)⟩

theorem dist_drop_bounds (cl : Classifier) (X Y : List Char) (i j : Nat)
    (hi : i ≤ X.length) (hj : j ≤ Y.length) :
    0 ≤ dist cl (X.drop i) (Y.drop j) ∧
      dist cl (X.drop i) (Y.drop j) ≤
        2 * (((X.length : Int) - (i : Int)) + ((Y.length : Int) - (j : Int))) := by
  have h1 := dist_nonneg cl (X.drop i) (Y.drop j)
  have h2 := dist_le_lengths cl (X.drop i) (Y.drop j)
  simp only [List.length_drop] at h2
  refine ⟨h1, ?_⟩
  omega

theorem memoStore_entry (i j : Nat) (comp : Option (Int × List (List Int))) (r : Int)
    (memo' : List (List Int)) (h : memoStore i j comp = some (r, memo')) :
    memoRead memo' i j = r := by
  cases comp with
  | none => simp [memoStore] at h
  | some p =>
    simp only [memoStore, Option.some.injEq, Prod.mk.injEq] at h
    rw [← h.2]
    exact h.1

/-- The value that a call returns is the entry of its cell in the table that the call leaves. -/
theorem recMemo_returns_entry (cl : Classifier) (c : NW_MemoContext) (fuel : Nat)
    (memo : List (List Int)) (i j : Nat) (r : Int) (memo' : List (List Int))
    (h : EditDistance_NW_RecMemo cl c fuel memo i j = some (r, memo')) :
    memoRead memo' i j = r := by
  cases fuel with
  | zero => simp [EditDistance_NW_RecMemo] at h
  | succ fuel =>
    rw [EditDistance_NW_RecMemo] at h
    split at h
    · exact memoStore_entry i j _ r memo' h
    · simp only [Option.some.injEq, Prod.mk.injEq] at h
      rw [← h.2]
      exact h.1

/-- C16: the memoized engine returns a value `v` with `0 ≤ v ≤ 2 * (|A| + |B|)`, which is not
the sentinel and is below `2 ^ 63` for lengths up to `10 ^ 5`; every entry of the table it
leaves is the sentinel or a value between `0` and `2 * ((M - i) + (N - j))`; and every call of
`EditDistance_NW_RecMemo` on a cell `(i,j)` during the run (from a table that satisfies the
invariant `MemoInv`) returns, and stores on a miss, a value between `0` and
`2 * ((M - i) + (N - j))`, different from the sentinel. -/
theorem C16_memo_values_bounded (cl : Classifier) (A B : List Char) :
    (∃ v final, recRun cl A B = some (v, final) ∧
      EditDistance_NW_Rec cl A B = some v ∧
      0 ≤ v ∧ v ≤ 2 * ((A.length : Int) + (B.length : Int)) ∧ v ≠ NOT_YET_COMPUTED ∧
      (A.length ≤ 100000 → B.length ≤ 100000 → v < 2 ^ 63) ∧
      ∀ i j, i ≤ (recContext A B).M → j ≤ (recContext A B).N →
        memoRead final i j = NOT_YET_COMPUTED ∨
          (0 ≤ memoRead final i j ∧
            memoRead final i j ≤
              2 * ((((recContext A B).M : Int) - (i : Int)) +
                (((recContext A B).N : Int) - (j : Int))))) ∧
    ∀ (fuel : Nat) (memo : List (List Int)) (i j : Nat),
      i ≤ (recContext A B).M → j ≤ (recContext A B).N →
      ((recContext A B).M - i) + ((recContext A B).N - j) < fuel →
      MemoInv cl (recContext A B) memo →
      ∃ r memo', EditDistance_NW_RecMemo cl (recContext A B) fuel memo i j = some (r, memo') ∧
        0 ≤ r ∧
        r ≤ 2 * ((((recContext A B).M : Int) - (i : Int)) +
          (((recContext A B).N : Int) - (j : Int))) ∧
        r ≠ NOT_YET_COMPUTED ∧ memoRead memo' i j = r ∧ MemoInv cl (recContext A B) memo' := by
  have hM := recContext_M A B
  have hN := recContext_N A B
  have hsum : ((recContext A B).X.length : Int) + ((recContext A B).Y.length : Int) =
      (A.length : Int) + (B.length : Int) := by
    unfold recContext
    split
    · rfl
    · exact Int.add_comm _ _
  constructor
  · obtain ⟨final, hrun, hinv⟩ := recRun_spec cl A B
    have hb := dist_drop_bounds cl (recContext A B).X (recContext A B).Y 0 0
      (Nat.zero_le _) (Nat.zero_le _)
    simp only [List.drop_zero, Nat.cast_zero, sub_zero] at hb
    refine ⟨_, final, hrun, by rw [EditDistance_NW_Rec, hrun], hb.1, by omega, ?_, ?_, ?_⟩
    · have := hb.1
      unfold NOT_YET_COMPUTED
      omega
    · intro hA hB
      have := hb.2
      have h3 : (2 : Int) ^ 63 = 9223372036854775808 := by norm_num
      rw [h3]
      omega
    · intro i j hi hj
      rcases hinv.vals i j hi hj with h | h
      · exact Or.inl h
      · right
        rw [h, hM, hN]
        exact dist_drop_bounds cl _ _ i j (by omega) (by omega)
  · intro fuel memo i j hi hj hfuel hinv
    obtain ⟨memo', hcall, hinv'⟩ := recMemo_spec cl (recContext A B) hM hN fuel memo i j hi hj
      hfuel hinv
    have hb := dist_drop_bounds cl (recContext A B).X (recContext A B).Y i j
      (by omega) (by omega)
    refine ⟨_, memo', hcall, hb.1, by rw [hM, hN]; exact hb.2, ?_, ?_, hinv'⟩
    · have := hb.1
      unfold NOT_YET_COMPUTED
      omega
    · exact recMemo_returns_entry cl _ fuel memo i j _ memo' hcall

/-- C18: with a lawful classifier and a first sequence that is not empty the memoized engine
returns the value of the iterative engine; the sweep ends with `columnM[i] = phi(i, 0)` at every
row `i < lengthA`, for `phi` on `A` and `B` as given; and the sweep of the columns below `c`
from buffers that hold `columnM[i] = phi(i, c)` and the boundary values `columnN[k] = phi(M, k)`
for `k ≤ c` ends with `columnM[i] = phi(i, 0)`. -/
theorem C18_iter_eq_rec (cl : Classifier) (hl : cl.Lawful) (A B : List Char)
    (hA : 1 ≤ A.length) :
    EditDistance_NW_Rec cl A B = some (EditDistance_NW_Iter cl A B) ∧
      (∀ i, i < A.length →
        rd (iterCols cl A B B.length (boundary cl A) (boundary cl B)).1 i = phi cl A B i 0) ∧
      ∀ (c : Nat) (columnM columnN : List Int), c ≤ B.length →
        columnM.length = A.length + 1 → columnN.length = B.length + 1 →
        (∀ i, i < A.length → rd columnM i = phi cl A B i c) →
        (∀ k, k ≤ c → rd columnN k = phi cl A B A.length k) →
        ∀ i, i < A.length → rd (iterCols cl A B c columnM columnN).1 i = phi cl A B i 0 := by
  have hphi : ∀ i j, phi cl A B i j = dist cl (A.drop i) (B.drop j) :=
    fun i j => phi_eq_dist cl hl _ _ _ i j (le_refl _)
  have hgen : ∀ (c : Nat) (columnM columnN : List Int), c ≤ B.length →
      columnM.length = A.length + 1 → columnN.length = B.length + 1 →
      (∀ i, i < A.length → rd columnM i = phi cl A B i c) →
      (∀ k, k ≤ c → rd columnN k = phi cl A B A.length k) →
      ∀ i, i < A.length → rd (iterCols cl A B c columnM columnN).1 i = phi cl A B i 0 := by
    intro c columnM columnN hc hlM hlN hM hN i hi
    rw [hphi, List.drop_zero]
    apply iterCols_spec cl A B c columnM columnN hc hlM hlN _ _ i hi
    · intro i' hi'
      rw [hM i' hi', hphi]
    · intro k hk
      rw [hN k hk, hphi, List.drop_of_length_le (le_refl _)]
  obtain ⟨hlA, hvA⟩ := boundary_spec cl A
  obtain ⟨hlB, hvB⟩ := boundary_spec cl B
  refine ⟨?_, ?_, hgen⟩
  · rw [rec_eq_dist cl hl, iter_eq_dist cl A B (by omega)]
  · apply hgen B.length _ _ (le_refl _) hlA hlB
    · intro i hi
      rw [hvA i (by omega), hphi, List.drop_of_length_le (le_refl _), dist_nil_right]
    · intro k hk
      rw [hvB k hk, hphi, List.drop_of_length_le (le_refl _), dist_nil_left]

/-- Witness of C18 on `A = "A-N"` and the longer `B = "NC.GT"`. -/
theorem C18_iter_eq_rec_witness :
    dna.Lawful ∧ 1 ≤ ['A', '-', 'N'].length ∧
      EditDistance_NW_Rec dna ['A', '-', 'N'] ['N', 'C', '.', 'G', 'T'] =
        some (EditDistance_NW_Iter dna ['A', '-', 'N'] ['N', 'C', '.', 'G', 'T']) :=
  ⟨dna_lawful, by decide, (C18_iter_eq_rec dna dna_lawful _ _ (by decide)).1⟩

/-- C19: when `lengthA ≤ S + 1`, so that the range of `A` is never split, the cache-oblivious
engine returns the value of the iterative engine, and the recursion leaves the two buffers as
the column sweep of the iterative engine leaves them. -/
theorem C19_oblivious_eq_iter_no_split (cl : Classifier) (A B : List Char)
    (hA : A.length ≤ S + 1) :
    EditDistance_NW_Oblivious cl A B = some (EditDistance_NW_Iter cl A B) ∧
      EditDistance_NW_Oblivious_Rec cl S A B (A.length + B.length + 1) 0
          ((A.length : Int) - 1) 0 ((B.length : Int) - 1) (boundary cl B) (boundary cl A) =
        some ((iterCols cl A B B.length (boundary cl A) (boundary cl B)).2,
          (iterCols cl A B B.length (boundary cl A) (boundary cl B)).1) := by
  refine ⟨obliviousWith_eq_iter cl S A B hA, ?_⟩
  have h := obliviousRec_no_split cl S A B hA (A.length + B.length + 1) 0 B.length
    (boundary cl B) (boundary cl A) (Nat.zero_le _) (by omega)
  rw [blockCols_eq_iterCols] at h
  simpa using h

/-- Witness of C19 on `A = "ACGT"` and a sequence `B` of 300 characters, whose range is
split. -/
theorem C19_oblivious_eq_iter_no_split_witness :
    ['A', 'C', 'G', 'T'].length ≤ S + 1 ∧
      EditDistance_NW_Oblivious dna ['A', 'C', 'G', 'T'] (List.replicate 300 'C') =
        some (EditDistance_NW_Iter dna ['A', 'C', 'G', 'T'] (List.replicate 300 'C')) :=
  ⟨by decide, (C19_oblivious_eq_iter_no_split dna _ _ (by decide)).1⟩

/-- C20: when `1 ≤ lengthA ≤ K`, a single row of tiles, and `A[0]` is a base, the cache-aware
engine returns the value of the iterative engine. -/
theorem C20_aware_eq_iter_single_tile_row (cl : Classifier) (A B : List Char)
    (hA : 1 ≤ A.length) (hK : A.length ≤ K) (h0 : cl.isBase (charAt A 0) = true) :
    EditDistance_NW_Aware cl A B = some (EditDistance_NW_Iter cl A B) := by
  rw [iter_eq_dist cl A B (by omega)]
  exact awareWith_eq_dist cl K A B (by omega) hK h0

/-- Witness of C20 on `A = "A-CN"`, which holds a non-base after its first base, and a sequence
`B` of 200 characters, which spans several columns of tiles. -/
theorem C20_aware_eq_iter_single_tile_row_witness :
    1 ≤ ['A', '-', 'C', 'N'].length ∧ ['A', '-', 'C', 'N'].length ≤ K ∧
      dna.isBase (charAt ['A', '-', 'C', 'N'] 0) = true ∧
      EditDistance_NW_Aware dna ['A', '-', 'C', 'N'] (List.replicate 200 'C') =
        some (EditDistance_NW_Iter dna ['A', '-', 'C', 'N'] (List.replicate 200 'C')) :=
  ⟨by decide, by decide, by decide,
    C20_aware_eq_iter_single_tile_row dna _ _ (by decide) (by decide) (by decide)⟩

theorem substCost_self (cl : Classifier) (hl : cl.Lawful) (x : Char)
    (hx : cl.isBase x = true) (hu : cl.isUnknownBase x = false) : substCost cl x x = 0 := by
  simp [substCost, hu, hl.same_self x hx hu]

/-- The value of the recurrence on the worked example of the specification. -/
theorem dist_worked_example (cl : Classifier) (hl : cl.Lawful)
    (h : ∀ c ∈ ['A', 'C', 'G', 'T'], cl.isBase c = true ∧ cl.isUnknownBase c = false) :
    dist cl ['A', 'A', 'T', 'C', 'G'] ['A', 'A', 'C', 'G'] = 2 := by
  have hA := h 'A' (by simp)
  have hC := h 'C' (by simp)
  have hG := h 'G' (by simp)
  have hT := h 'T' (by simp)
  have hup := dist_le_alignCost cl hl
    [Step.pair 'A' 'A', Step.pair 'A' 'A', Step.left 'T', Step.pair 'C' 'C', Step.pair 'G' 'G']
    (by simp [pairsBases, hA.1, hC.1, hG.1])
  simp only [firstOf, secondOf, alignCost, substCost_self cl hl 'A' hA.1 hA.2,
    substCost_self cl hl 'C' hC.1 hC.2, substCost_self cl hl 'G' hG.1 hG.2,
    gap_of_base cl 'T' hT.1] at hup
  have hlow := dist_ge_excess cl _ ['A', 'A', 'C', 'G'] ['A', 'A', 'T', 'C', 'G'] (le_refl _)
  have hc5 : countBases cl ['A', 'A', 'T', 'C', 'G'] = 5 := by
    simp [countBases, hA.1, hC.1, hG.1, hT.1]
  have hc4 : countBases cl ['A', 'A', 'C', 'G'] = 4 := by
    simp [countBases, hA.1, hC.1, hG.1]
  rw [hc5, hc4, dist_symm cl hl] at hlow
  push_cast at hlow
  omega

/-- C12: with a lawful classifier for which `A`, `C`, `G` and `T` are canonical bases, each of
the four engines returns `2` on `A = "AATCG"` and `B = "AACG"`, in both argument orders. -/
theorem C12_worked_example (cl : Classifier) (hl : cl.Lawful)
    (h : ∀ c ∈ ['A', 'C', 'G', 'T'], cl.isBase c = true ∧ cl.isUnknownBase c = false) :
    (EditDistance_NW_Rec cl ['A', 'A', 'T', 'C', 'G'] ['A', 'A', 'C', 'G'] = some 2 ∧
      EditDistance_NW_Iter cl ['A', 'A', 'T', 'C', 'G'] ['A', 'A', 'C', 'G'] = 2 ∧
      EditDistance_NW_Aware cl ['A', 'A', 'T', 'C', 'G'] ['A', 'A', 'C', 'G'] = some 2 ∧
      EditDistance_NW_Oblivious cl ['A', 'A', 'T', 'C', 'G'] ['A', 'A', 'C', 'G'] = some 2) ∧
    (EditDistance_NW_Rec cl ['A', 'A', 'C', 'G'] ['A', 'A', 'T', 'C', 'G'] = some 2 ∧
      EditDistance_NW_Iter cl ['A', 'A', 'C', 'G'] ['A', 'A', 'T', 'C', 'G'] = 2 ∧
      EditDistance_NW_Aware cl ['A', 'A', 'C', 'G'] ['A', 'A', 'T', 'C', 'G'] = some 2 ∧
      EditDistance_NW_Oblivious cl ['A', 'A', 'C', 'G'] ['A', 'A', 'T', 'C', 'G'] =
        some 2) := by
  have hA := (h 'A' (by simp)).1
  have h1 := dist_worked_example cl hl h
  have h2 : dist cl ['A', 'A', 'C', 'G'] ['A', 'A', 'T', 'C', 'G'] = 2 := by
    rw [dist_symm cl hl]; exact h1
  have all : ∀ X Y : List Char, 1 ≤ X.length → X.length ≤ 64 →
      cl.isBase (charAt X 0) = true →
      EditDistance_NW_Rec cl X Y = some (dist cl X Y) ∧
      EditDistance_NW_Iter cl X Y = dist cl X Y ∧
      EditDistance_NW_Aware cl X Y = some (dist cl X Y) ∧
      EditDistance_NW_Oblivious cl X Y = some (dist cl X Y) := by
    intro X Y hX1 hX2 hX0
    have hi := iter_eq_dist cl X Y (by omega)
    refine ⟨rec_eq_dist cl hl _ _, hi, ?_, ?_⟩
    · exact awareWith_eq_dist cl K X Y (by omega) hX2 hX0
    · rw [← hi]
      exact obliviousWith_eq_iter cl S X Y (by simp only [S]; omega)
  have a1 := all ['A', 'A', 'T', 'C', 'G'] ['A', 'A', 'C', 'G'] (by simp) (by simp) hA
  have a2 := all ['A', 'A', 'C', 'G'] ['A', 'A', 'T', 'C', 'G'] (by simp) (by simp) hA
  rw [h1] at a1
  rw [h2] at a2
  exact ⟨a1, a2⟩

/-- Witness of C12 with the classifier `dna`. -/
theorem C12_worked_example_witness :
    dna.Lawful ∧
      (∀ c ∈ ['A', 'C', 'G', 'T'], dna.isBase c = true ∧ dna.isUnknownBase c = false) ∧
      EditDistance_NW_Rec dna ['A', 'A', 'T', 'C', 'G'] ['A', 'A', 'C', 'G'] = some 2 ∧
      EditDistance_NW_Oblivious dna ['A', 'A', 'C', 'G'] ['A', 'A', 'T', 'C', 'G'] = some 2 :=
  ⟨dna_lawful, by decide, (C12_worked_example dna dna_lawful (by decide)).1.1,
    (C12_worked_example dna dna_lawful (by decide)).2.2.2.2⟩

theorem Run.bind_outOfBounds {α β : Type} (f : α → Run β) :
    (Run.outOfBounds : Run α) >>= f = Run.outOfBounds := rfl

theorem Run.bind_value {α β : Type} (a : α) (f : α → Run β) :
    (Run.value a : Run α) >>= f = f a := rfl

theorem readChar_length (A : List Char) : readChar A A.length = Run.outOfBounds := by
  simp [readChar]

theorem readChar_lt (A : List Char) (i : Nat) (h : i < A.length) :
    ∃ c, readChar A i = Run.value c := by
  unfold readChar
  rw [List.getElem?_eq_getElem h]
  exact ⟨_, rfl⟩

theorem readMemo_alloc (M N i j : Nat) (hi : i ≤ M) (hj : j ≤ N) :
    readMemo (memoAlloc M N) i j = Run.value NOT_YET_COMPUTED := by
  unfold readMemo memoAlloc readLong
  rw [List.getElem?_eq_getElem (by simp; omega)]
  simp only [List.getElem_replicate]
  rw [List.getElem?_eq_getElem (by simp; omega)]
  simp

/-- Every call of the checked recursion on the freshly allocated table reads outside a
sequence before it stores anything. -/
theorem checkedRecMemo_outOfBounds (cl : Classifier) (c : NW_MemoContext)
    (hM : c.M = c.X.length) (hN : c.N = c.Y.length) :
    ∀ (fuel i j : Nat), i ≤ c.M → j ≤ c.N → (c.M - i) + (c.N - j) < fuel →
      checkedRecMemo cl c fuel (memoAlloc c.M c.N) i j = Run.outOfBounds := by
  intro fuel
  induction fuel with
  | zero => intro i j _ _ h; omega
  | succ fuel ih =>
    intro i j hi hj hfuel
    rw [checkedRecMemo, readMemo_alloc _ _ i j hi hj, Run.bind_value]
    rw [if_pos rfl]
    by_cases hiM : i = c.M
    · rw [hiM, hM, readChar_length, Run.bind_outOfBounds]
    · obtain ⟨Xi, hXi⟩ := readChar_lt c.X i (by omega)
      rw [hXi, Run.bind_value]
      by_cases hjN : j = c.N
      · rw [hjN, hN, readChar_length, Run.bind_outOfBounds]
      · obtain ⟨Yj, hYj⟩ := readChar_lt c.Y j (by omega)
        rw [hYj, Run.bind_value]
        simp only [if_neg hiM, if_neg hjN]
        have h1 := ih (i + 1) j (by omega) hj (by omega)
        have h2 := ih i (j + 1) hi (by omega) (by omega)
        have h3 := ih (i + 1) (j + 1) (by omega) (by omega) (by omega)
        rw [h1, h2, h3]
        split
        · rfl
        · split <;> rfl

theorem checkedRec_outOfBounds (cl : Classifier) (A B : List Char) :
    checkedRec cl A B = Run.outOfBounds := by
  unfold checkedRec
  simp only
  rw [checkedRecMemo_outOfBounds cl (recContext A B) (recContext_M A B) (recContext_N A B)
    _ 0 0 (Nat.zero_le _) (Nat.zero_le _) (by omega)]
  rfl

theorem readLong_lt (buf : List Int) (i : Nat) (h : i < buf.length) :
    ∃ v, readLong buf i = Run.value v := by
  unfold readLong
  rw [List.getElem?_eq_getElem h]
  exact ⟨_, rfl⟩

theorem checkedInitColumn_ok (cl : Classifier) (A : List Char) :
    ∀ (k : Nat) (col : List Int), k ≤ A.length → col.length = A.length + 1 →
      ∃ col', checkedInitColumn cl A k col = Run.value col' ∧ col'.length = A.length + 1 := by
  intro k
  induction k with
  | zero => intro col _ hlen; exact ⟨col, rfl, hlen⟩
  | succ k ih =>
    intro col hk hlen
    obtain ⟨a, ha⟩ := readChar_lt A k (by omega)
    obtain ⟨v, hv⟩ := readLong_lt col (k + 1) (by omega)
    rw [checkedInitColumn, ha, Run.bind_value, hv, Run.bind_value]
    have hw : writeLong col k (gap cl a + v) = Run.value (col.set k (gap cl a + v)) := by
      unfold writeLong
      rw [if_pos (by omega)]
    rw [hw, Run.bind_value]
    exact ih _ (by omega) (by rw [List.length_set, hlen])

theorem checkedBoundary_ok (cl : Classifier) (A : List Char) :
    ∃ col, checkedBoundary cl A = Run.value col ∧ col.length = A.length + 1 := by
  unfold checkedBoundary
  have hw : writeLong (List.replicate (A.length + 1) 0) A.length 0 =
      Run.value ((List.replicate (A.length + 1) 0).set A.length 0) := by
    unfold writeLong
    rw [if_pos (by simp)]
  rw [hw, Run.bind_value]
  exact checkedInitColumn_ok cl A A.length _ (le_refl _) (by simp)

/-- With an empty second sequence the checked iterative engine reads `columnN[sizeN - 1]`
outside the buffer. -/
theorem checkedIter_nil_outOfBounds (cl : Classifier) (A : List Char) :
    checkedIter cl A [] = Run.outOfBounds := by
  obtain ⟨colM, hM, _⟩ := checkedBoundary_ok cl A
  obtain ⟨colN, hN, hlen⟩ := checkedBoundary_ok cl []
  unfold checkedIter
  rw [hM, Run.bind_value, hN, Run.bind_value]
  have hread : readLong colN ((([] : List Char).length + 2 ^ 64 - 1) % 2 ^ 64) =
      Run.outOfBounds := by
    unfold readLong
    rw [List.getElem?_eq_none]
    rw [hlen]
    simp
  rw [hread, Run.bind_outOfBounds]

set_option maxRecDepth 100000 in
/-- C17 (fails on the code): with checked memory the memoized engine reads outside a sequence
on every input, `("A", "A")` for one: line 56 reads `X[M]` and line 57 reads `Y[N]` before the
tests `i == M` and `j == N`.  The iterative engine reads outside `columnN` whenever the second
sequence is empty, on `("A", "")` for one: line 163 reads `columnN[sizeN - 1]` with `sizeN = 0`.
On `("A", "A")` the checked iterative engine stays inside its extents and returns `0`. -/
theorem C17_reads_outside_extents :
    (∀ (cl : Classifier) (A B : List Char), checkedRec cl A B = Run.outOfBounds) ∧
      (∀ (cl : Classifier) (A : List Char), checkedIter cl A [] = Run.outOfBounds) ∧
      checkedRec dna ['A'] ['A'] = Run.outOfBounds ∧
      checkedIter dna ['A'] [] = Run.outOfBounds ∧
      checkedIter dna ['A'] ['A'] = Run.value 0 :=
  ⟨checkedRec_outOfBounds, checkedIter_nil_outOfBounds, by decide, by decide, by decide⟩

end NW
